import Mathlib

/-!
Verification of the move-generation and move-ordering core of the engine
(src/bitboard.h, src/movegen.h, src/movegen.cpp, src/movepick.cpp).

Bitboards are modelled as natural numbers; every 64-bit operation that can
overflow is followed by an explicit reduction modulo 2^64, mirroring the
uint64_t arithmetic of the source.  Code of the repository that is not part
of the given sources (types.h, position.h/.cpp, bitboard.cpp) is modelled
from the specification; every such definition carries a doc comment that
starts with Modelled from the spec.
-/

/-- A bitboard: one bit per square (a1 = bit 0 .. h8 = bit 63), as in
bitboard.h.  64-bit unsigned arithmetic is made explicit with % 2^64. -/
abbrev Bitboard := Nat

/-- 2^64, the modulus of Bitboard arithmetic. -/
def U64 : Nat := 2 ^ 64

/-- AllSquares = ~Bitboard(0) (bitboard.h). -/
def AllSquares : Bitboard := U64 - 1

/-- FileABB = 0x0101010101010101 (bitboard.h). -/
def FileABB : Bitboard := 0x0101010101010101

/-- Rank1BB = 0xFF (bitboard.h). -/
def Rank1BB : Bitboard := 0xFF

/-- Modelled from the spec: the File enum of types.h (FILE_A .. FILE_H),
represented as 0..7. -/
abbrev File := Nat

/-- Modelled from the spec: the Rank enum of types.h (RANK_1 .. RANK_8),
represented as 0..7. -/
abbrev Rank := Nat

/-- Modelled from the spec: file_of(s) = s & 7 (types.h). -/
def file_of (s : Nat) : File := s % 8

/-- Modelled from the spec: rank_of(s) = s >> 3 (types.h). -/
def rank_of (s : Nat) : Rank := s / 8

/-- fbb(File): the bitboard of a file (bitboard.h). -/
def fbb (f : File) : Bitboard := FileABB <<< f

/-- rbb(Rank): the bitboard of a rank (bitboard.h). -/
def rbb (r : Rank) : Bitboard := Rank1BB <<< (8 * r)

/-- 64-bit complement, as the C++ operator ~ on Bitboard. -/
def bbNot (b : Bitboard) : Bitboard := AllSquares ^^^ (b % U64)

/-- Modelled from the spec: the Direction enum of types.h.  A one-step
translation of the board. -/
inductive Direction where
  | NORTH | SOUTH | EAST | WEST
  | NORTH_EAST | NORTH_WEST | SOUTH_EAST | SOUTH_WEST
deriving DecidableEq, Repr

open Direction

/-- Modelled from the spec: the numeric offset of a Direction
(types.h: NORTH = 8, EAST = 1, SOUTH = -8, WEST = -1, and sums). -/
def Direction.offset : Direction → Int
  | NORTH => 8      | SOUTH => -8
  | EAST => 1       | WEST => -1
  | NORTH_EAST => 9 | NORTH_WEST => 7
  | SOUTH_EAST => -7 | SOUTH_WEST => -9

/-- shift<D>(b) moves a bitboard one step along direction D (bitboard.h). -/
def shift (D : Direction) (b : Bitboard) : Bitboard :=
  match D with
  | NORTH => (b <<< 8) % U64
  | SOUTH => b >>> 8
  | EAST => ((b &&& bbNot (fbb 7)) <<< 1) % U64
  | WEST => (b &&& bbNot (fbb 0)) >>> 1
  | NORTH_EAST => ((b &&& bbNot (fbb 7)) <<< 9) % U64
  | NORTH_WEST => ((b &&& bbNot (fbb 0)) <<< 7) % U64
  | SOUTH_EAST => (b &&& bbNot (fbb 7)) >>> 7
  | SOUTH_WEST => (b &&& bbNot (fbb 0)) >>> 9

/-- The one-step translation of square s in direction D, or none when the
step leaves the board.  Used to state what shift is supposed to compute. -/
def onBoardStep (D : Direction) (s : Nat) : Option Nat :=
  if s < 64 then
    if 0 ≤ (s : Int) + D.offset ∧ (s : Int) + D.offset < 64 ∧
        Int.natAbs (((s : Int) + D.offset) % 8 - (s : Int) % 8) ≤ 1 then
      some ((s : Int) + D.offset).toNat
    else none
  else none

/-- more_than_one(b): b & (b - 1) as a truth value (bitboard.h). -/
def more_than_one (b : Bitboard) : Bool := b &&& (b - 1) ≠ 0

/-- The set bits of a bitboard in ascending order: the sequence of squares
produced by the while (b) pop_lsb(&b) loops of the source. -/
def serialize (b : Bitboard) : List Nat :=
  (List.range 64).filter (fun i => b.testBit i)

/-! ### Magic bitboards (bitboard.h struct Magic, attack table per spec 4.1) -/

/-- Modelled from the spec: the hardware pext bit-extraction instruction used
by Magic::index when HasPext holds.  Bit k of the result is the bit of occ at
the position of the k-th lowest set bit of mask. -/
def pext (occ mask : Bitboard) : Nat :=
  ((serialize mask).enum).foldl
    (fun acc kp => if occ.testBit kp.2 then acc ||| (1 <<< kp.1) else acc) 0

/-- The three alternative index computations of Magic::index (bitboard.h),
parameterised by the platform flags HasPext and Is64Bit. -/
def magicIndexFn (mask magic shiftAmt : Nat) (hasPext is64 : Bool)
    (occupied : Bitboard) : Nat :=
  if hasPext then pext occupied mask
  else if is64 then (((occupied &&& mask) * magic) % U64) >>> shiftAmt
  else
    let lo := (occupied % 2 ^ 32) &&& (mask % 2 ^ 32)
    let hi := ((occupied >>> 32) % 2 ^ 32) &&& ((mask >>> 32) % 2 ^ 32)
    (((lo * (magic % 2 ^ 32)) % 2 ^ 32) ^^^
      ((hi * ((magic >>> 32) % 2 ^ 32)) % 2 ^ 32)) >>> shiftAmt

/-- Magic holds all magic bitboards relevant data for a single square
(bitboard.h).  The attack array is modelled as a function from indices. -/
structure Magic where
  mask : Bitboard
  magic : Bitboard
  attacks : Nat → Bitboard
  shift : Nat

/-- Magic::index (bitboard.h), choosing among the three computations by the
platform flags. -/
def Magic.index (m : Magic) (hasPext is64 : Bool) (occupied : Bitboard) : Nat :=
  magicIndexFn m.mask m.magic m.shift hasPext is64 occupied

/-- attacks_bb<Pt>(s, occupied) for a sliding piece: the table lookup
m.attacks[m.index(occupied)] (bitboard.h). -/
def attacks_bb_sliding (m : Magic) (hasPext is64 : Bool)
    (occupied : Bitboard) : Bitboard :=
  m.attacks (m.index hasPext is64 occupied)

/-- All subsets of the set of bits listed in bits. -/
def subsetsOfBits : List Nat → List Nat
  | [] => [0]
  | b :: rest =>
      let s := subsetsOfBits rest
      s ++ s.map (fun x => x ||| (1 <<< b))

/-- All occupancy subsets of a relevance mask (spec 4.1: table construction
enumerates all 2^k subsets of the mask). -/
def subsetsOfMask (mask : Bitboard) : List Nat := subsetsOfBits (serialize mask)

/-- Modelled from the spec: the startup table construction of bitboard.cpp.
For each occupancy subset s of the mask, the true (ray-traced) attack set
ref s is stored at index idx s; other entries are unconstrained (0). -/
def buildAttacks (idx : Nat → Nat) (mask : Bitboard) (ref : Bitboard → Bitboard)
    (i : Nat) : Bitboard :=
  match (subsetsOfMask mask).find? (fun s => idx s = i) with
  | some s => ref s
  | none => 0

/-- The construction-time injectivity contract (spec 4.1): the index function
is injective over the enumerated occupancy subsets of the mask. -/
def InjOnSubsets (idx : Nat → Nat) (mask : Bitboard) : Prop :=
  ∀ a ∈ subsetsOfMask mask, ∀ b ∈ subsetsOfMask mask, idx a = idx b → a = b

instance (idx : Nat → Nat) (mask : Bitboard) : Decidable (InjOnSubsets idx mask) := by
  unfold InjOnSubsets; infer_instance

/-! ### Geometry tables (modelled from the spec: bitboard.cpp init) -/

/-- sqbb(s) = SquareBB[s], the bitboard of a single square. -/
def sqbb (s : Nat) : Bitboard := 1 <<< s

/-- Repeated one-step shifts, used to ray-trace slider attacks on an empty
board. -/
def rayAux (d : Direction) : Nat → Bitboard → Bitboard
  | 0, _ => 0
  | n + 1, b => b ||| rayAux d n (shift d b)

/-- Modelled from the spec: the full ray from square s in direction d on an
empty board (s itself excluded). -/
def rayBB (d : Direction) (s : Nat) : Bitboard := rayAux d 7 (shift d (sqbb s))

/-- The four diagonal directions (bishop rays). -/
def diagDirs : List Direction := [NORTH_EAST, NORTH_WEST, SOUTH_EAST, SOUTH_WEST]

/-- The four straight directions (rook rays). -/
def lineDirs : List Direction := [NORTH, SOUTH, EAST, WEST]

/-- All eight directions. -/
def allDirs : List Direction := lineDirs ++ diagDirs

/-- Modelled from the spec: king pseudo-attacks (one step in each direction). -/
def kingAttacksBB (s : Nat) : Bitboard :=
  (allDirs.map (fun d => shift d (sqbb s))).foldl (· ||| ·) 0

/-- Modelled from the spec: knight pseudo-attacks, built edge-safely from two
chained one-step shifts. -/
def knightAttacksBB (s : Nat) : Bitboard :=
  ([(NORTH, NORTH_EAST), (NORTH, NORTH_WEST), (SOUTH, SOUTH_EAST),
    (SOUTH, SOUTH_WEST), (EAST, NORTH_EAST), (EAST, SOUTH_EAST),
    (WEST, NORTH_WEST), (WEST, SOUTH_WEST)].map
      (fun p => shift p.2 (shift p.1 (sqbb s)))).foldl (· ||| ·) 0

/-- Walk from cur along d, collecting squares until s2 is reached; 0 when s2
is never reached. -/
def betweenGo (d : Direction) (s2 : Nat) : Nat → Bitboard → Bitboard → Bitboard
  | 0, _, _ => 0
  | fuel + 1, cur, acc =>
      if cur.testBit s2 then acc else betweenGo d s2 fuel (shift d cur) (acc ||| cur)

/-- Modelled from the spec: BetweenBB[s1][s2], the squares strictly between
two aligned squares, 0 when unaligned (doc comment of between_bb in
bitboard.h). -/
def between_bb (s1 s2 : Nat) : Bitboard :=
  (allDirs.map (fun d => betweenGo d s2 8 (shift d (sqbb s1)) 0)).foldl (· ||| ·) 0

/-- The direction opposite to d. -/
def Direction.opp : Direction → Direction
  | NORTH => SOUTH | SOUTH => NORTH | EAST => WEST | WEST => EAST
  | NORTH_EAST => SOUTH_WEST | SOUTH_WEST => NORTH_EAST
  | NORTH_WEST => SOUTH_EAST | SOUTH_EAST => NORTH_WEST

/-- Modelled from the spec: LineBB[s1][s2], the entire line (both endpoints
included) through two aligned squares, 0 when unaligned. -/
def line_bb (s1 s2 : Nat) : Bitboard :=
  (allDirs.map (fun d =>
    if (rayBB d s1).testBit s2 then rayBB d s1 ||| rayBB d.opp s1 ||| sqbb s1
    else 0)).foldl (· ||| ·) 0

/-! ### Core chess types (modelled from the spec: types.h) -/

/-- Modelled from the spec: the two sides. -/
inductive Color where
  | WHITE | BLACK
deriving DecidableEq, Repr

open Color

/-- The other side. -/
def Color.opp : Color → Color
  | WHITE => BLACK
  | BLACK => WHITE

/-- Modelled from the spec: piece types, with NO_PIECE_TYPE for the content of
an empty square. -/
inductive PieceType where
  | NO_PIECE_TYPE | PAWN | KNIGHT | BISHOP | ROOK | QUEEN | KING
deriving DecidableEq, Repr

open PieceType

/-- The numeric value of a PieceType in types.h (used by the evasion scoring
formula Value(type_of(...))). -/
def PieceType.toInt : PieceType → Int
  | NO_PIECE_TYPE => 0 | PAWN => 1 | KNIGHT => 2 | BISHOP => 3
  | ROOK => 4 | QUEEN => 5 | KING => 6

/-- Modelled from the spec: a piece (colour and type), or no piece. -/
inductive Piece where
  | none
  | mk (c : Color) (pt : PieceType)
deriving DecidableEq, Repr

/-- type_of(piece), NO_PIECE_TYPE for an empty square. -/
def Piece.type_of : Piece → PieceType
  | Piece.none => NO_PIECE_TYPE
  | Piece.mk _ pt => pt

/-- Modelled from the spec: the special-move flag of a Move
(normal / promotion / en passant / castling). -/
inductive MoveType where
  | NORMAL | PROMOTION | ENPASSANT | CASTLING
deriving DecidableEq, Repr

open MoveType

/-- Modelled from the spec: a move is a compact record of from-square,
to-square, special-move flag and optional promotion piece type (the
promotion field defaults to KNIGHT, as in the bit encoding of types.h). -/
structure Move where
  from_sq : Nat
  to_sq : Nat
  mtype : MoveType
  promotion : PieceType
deriving DecidableEq, Repr

/-- make_move(from, to) of types.h: a normal move. -/
def make_move (f t : Nat) : Move := ⟨f, t, NORMAL, KNIGHT⟩

/-- make<T>(from, to, pt) of types.h for the special move types. -/
def make_special (T : MoveType) (f t : Nat) (pt : PieceType) : Move := ⟨f, t, T, pt⟩

/-- MOVE_NONE, the "no move" sentinel (from = to = 0 in the encoding of
types.h; no generated move has from = to). -/
def MOVE_NONE : Move := ⟨0, 0, NORMAL, KNIGHT⟩

/-- from_to(m) of types.h: the combined from/to index used by the butterfly
history. -/
def from_to (m : Move) : Nat := m.from_sq * 64 + m.to_sq

/-- Square arithmetic: to - D for a direction offset D, as in the pawn-move
generation (squares are ints in the source). -/
def sqSub (t : Nat) (d : Int) : Nat := ((t : Int) - d).toNat

/-- Modelled from the spec: SQ_NONE (= 64), the "no square" sentinel used for
the en-passant square. -/
def SQ_NONE : Nat := 64

/-- Modelled from the spec: PieceValue[MG][piece] of types.h, the static
middlegame piece values used for capture ordering (0 for no piece). -/
def PieceValue : Piece → Int
  | Piece.none => 0
  | Piece.mk _ pt =>
    match pt with
    | PAWN => 128 | KNIGHT => 782 | BISHOP => 830
    | ROOK => 1289 | QUEEN => 2529 | _ => 0

/-! ### The position interface (spec 6: read-only queries consumed by the
generator and picker; position.h/.cpp are not among the given sources) -/

/-- Modelled from the spec: the read-only position-query interface of spec 6
(piece placement, side to move, king squares, check status, castling rights,
en-passant square, legality / pseudo-legality / capture predicates, SEE, and
the occupancy-dependent slider attack sets). -/
structure Position where
  side_to_move : Color
  byColor : Color → Bitboard
  byTypeC : Color → PieceType → Bitboard
  king_sq : Color → Nat
  checkersBB : Bitboard
  ep_square : Nat
  blockers_for_king : Color → Bitboard
  slider_attacks_from : PieceType → Nat → Bitboard
  check_squares : PieceType → Bitboard
  squares_l : Color → PieceType → List Nat
  can_castle_k : Color → Bool
  can_castle_q : Color → Bool
  castling_impeded_k : Color → Bool
  castling_impeded_q : Color → Bool
  castling_rook_k : Color → Nat
  castling_rook_q : Color → Nat
  legal : Move → Bool
  pseudo_legal : Move → Bool
  capture : Move → Bool
  see_ge : Move → Int → Bool
  piece_on : Nat → Piece
  moved_piece : Move → Piece

/-- pos.pieces(): occupancy of both colours. -/
def Position.pieces (pos : Position) : Bitboard :=
  pos.byColor WHITE ||| pos.byColor BLACK

/-- pos.pieces(pt): both colours of one piece type. -/
def Position.pieces_t (pos : Position) (pt : PieceType) : Bitboard :=
  pos.byTypeC WHITE pt ||| pos.byTypeC BLACK pt

/-- pos.attacks_from<Pt>(s): pseudo-attack tables for knight and king,
occupancy-dependent oracle for the sliders. -/
def Position.attacks_from (pos : Position) (pt : PieceType) (s : Nat) : Bitboard :=
  match pt with
  | KNIGHT => knightAttacksBB s
  | KING => kingAttacksBB s
  | BISHOP => pos.slider_attacks_from BISHOP s
  | ROOK => pos.slider_attacks_from ROOK s
  | QUEEN => pos.slider_attacks_from QUEEN s
  | _ => 0

/-- pawn_attacks_bb<C>(b) (bitboard.h): squares attacked by pawns of colour C
placed on b. -/
def pawn_attacks_bb (c : Color) (b : Bitboard) : Bitboard :=
  if c = WHITE then shift NORTH_WEST b ||| shift NORTH_EAST b
  else shift SOUTH_WEST b ||| shift SOUTH_EAST b

/-- pos.attacks_from<PAWN>(s, c) = PawnAttacks[c][s]. -/
def pawnAttacksFrom (c : Color) (s : Nat) : Bitboard := pawn_attacks_bb c (sqbb s)

/-- PseudoAttacks[Pt][s]: attack set on an empty board (modelled from the
spec for the slider rays; bitboard.cpp builds these tables at startup). -/
def PseudoAttacks (pt : PieceType) (s : Nat) : Bitboard :=
  match pt with
  | KNIGHT => knightAttacksBB s
  | KING => kingAttacksBB s
  | BISHOP => (diagDirs.map (fun d => rayBB d s)).foldl (· ||| ·) 0
  | ROOK => (lineDirs.map (fun d => rayBB d s)).foldl (· ||| ·) 0
  | QUEEN => ((diagDirs ++ lineDirs).map (fun d => rayBB d s)).foldl (· ||| ·) 0
  | _ => 0

/-- lsb(b): the least significant set bit (serialize is ascending). -/
def lsb (b : Bitboard) : Nat := (serialize b).headD 0

/-! ### Move generation (movegen.h / movegen.cpp) -/

/-- The generation modes (movegen.h enum GenType). -/
inductive GenType where
  | CAPTURES | QUIETS | QUIET_CHECKS | EVASIONS | NON_EVASIONS | LEGAL
deriving DecidableEq, Repr

open GenType

/-- make_promotions<Type, D>(moveList, to, ksq) (movegen.cpp). -/
def make_promotions (T : GenType) (D : Direction) (t2 ksq : Nat) : List Move :=
  (if T = CAPTURES ∨ T = EVASIONS ∨ T = NON_EVASIONS then
    [make_special PROMOTION (sqSub t2 D.offset) t2 QUEEN] else [])
  ++ (if T = QUIETS ∨ T = EVASIONS ∨ T = NON_EVASIONS then
    [make_special PROMOTION (sqSub t2 D.offset) t2 ROOK,
     make_special PROMOTION (sqSub t2 D.offset) t2 BISHOP,
     make_special PROMOTION (sqSub t2 D.offset) t2 KNIGHT] else [])
  ++ (if T = QUIET_CHECKS ∧ (knightAttacksBB t2).testBit ksq then
    [make_special PROMOTION (sqSub t2 D.offset) t2 KNIGHT] else [])

/-- generate_pawn_moves<Us, Type>(pos, moveList, target) (movegen.cpp). -/
def generate_pawn_moves (Us : Color) (T : GenType) (pos : Position)
    (target : Bitboard) : List Move :=
  let Them := Us.opp
  let TRank7BB := if Us = WHITE then rbb 6 else rbb 1
  let TRank3BB := if Us = WHITE then rbb 2 else rbb 5
  let Up : Direction := if Us = WHITE then NORTH else SOUTH
  let UpRight : Direction := if Us = WHITE then NORTH_EAST else SOUTH_WEST
  let UpLeft : Direction := if Us = WHITE then NORTH_WEST else SOUTH_EAST
  let ksq := pos.king_sq Them
  let pawnsOn7 := pos.byTypeC Us PAWN &&& TRank7BB
  let pawnsNotOn7 := pos.byTypeC Us PAWN &&& bbNot TRank7BB
  let enemies := if T = EVASIONS then pos.byColor Them &&& target
                 else if T = CAPTURES then target else pos.byColor Them
  -- the emptySquares local: assigned in the push section for Type != CAPTURES,
  -- and in the promotion section for CAPTURES
  let emptySquares := if T = QUIETS ∨ T = QUIET_CHECKS then target
                      else bbNot pos.pieces
  -- Single and double pawn pushes, no promotions
  let pushes :=
    if T ≠ CAPTURES then
      let b1 := shift Up pawnsNotOn7 &&& emptySquares
      let b2 := shift Up (b1 &&& TRank3BB) &&& emptySquares
      let b1 := if T = EVASIONS then b1 &&& target else b1
      let b2 := if T = EVASIONS then b2 &&& target else b2
      let dcCandidateQuiets := pos.blockers_for_king Them &&& pawnsNotOn7
      let dc1 := shift Up dcCandidateQuiets &&& emptySquares &&& bbNot (fbb (file_of ksq))
      let dc2 := shift Up (dc1 &&& TRank3BB) &&& emptySquares
      let b1 := if T = QUIET_CHECKS then (b1 &&& pawnAttacksFrom Them ksq) ||| dc1 else b1
      let b2 := if T = QUIET_CHECKS then (b2 &&& pawnAttacksFrom Them ksq) ||| dc2 else b2
      (serialize b1).map (fun t2 => make_move (sqSub t2 Up.offset) t2)
      ++ (serialize b2).map (fun t2 => make_move (sqSub (sqSub t2 Up.offset) Up.offset) t2)
    else []
  -- Promotions and underpromotions
  let promos :=
    if pawnsOn7 ≠ 0 then
      let emptySquares := if T = EVASIONS then emptySquares &&& target else emptySquares
      let b1 := shift UpRight pawnsOn7 &&& enemies
      let b2 := shift UpLeft pawnsOn7 &&& enemies
      let b3 := shift Up pawnsOn7 &&& emptySquares
      (serialize b1).flatMap (fun t2 => make_promotions T UpRight t2 ksq)
      ++ (serialize b2).flatMap (fun t2 => make_promotions T UpLeft t2 ksq)
      ++ (serialize b3).flatMap (fun t2 => make_promotions T Up t2 ksq)
    else []
  -- Standard and en-passant captures
  let caps :=
    if T = CAPTURES ∨ T = EVASIONS ∨ T = NON_EVASIONS then
      let b1 := shift UpRight pawnsNotOn7 &&& enemies
      let b2 := shift UpLeft pawnsNotOn7 &&& enemies
      (serialize b1).map (fun t2 => make_move (sqSub t2 UpRight.offset) t2)
      ++ (serialize b2).map (fun t2 => make_move (sqSub t2 UpLeft.offset) t2)
      ++ (if pos.ep_square ≠ SQ_NONE then
            if T = EVASIONS ∧ ¬ target.testBit (sqSub pos.ep_square Up.offset) then []
            else (serialize (pawnsNotOn7 &&& pawnAttacksFrom Them pos.ep_square)).map
              (fun f => make_special ENPASSANT f pos.ep_square KNIGHT)
          else [])
    else []
  pushes ++ promos ++ caps

/-- generate_moves<Pt, Checks>(pos, moveList, us, target) (movegen.cpp). -/
def generate_moves (Pt : PieceType) (Checks : Bool) (pos : Position) (us : Color)
    (target : Bitboard) : List Move :=
  (pos.squares_l us Pt).flatMap (fun fr =>
    if Checks ∧ (Pt = BISHOP ∨ Pt = ROOK ∨ Pt = QUEEN) ∧
        (PseudoAttacks Pt fr &&& target &&& pos.check_squares Pt) = 0 then []
    else if Checks ∧ (pos.blockers_for_king us.opp).testBit fr then []
    else
      let b := pos.attacks_from Pt fr &&& target
      let b := if Checks then b &&& pos.check_squares Pt else b
      (serialize b).map (make_move fr))

/-- generate_all<Us, Type>(pos, moveList, target) (movegen.cpp). -/
def generate_all (Us : Color) (T : GenType) (pos : Position)
    (target : Bitboard) : List Move :=
  let Checks := T = QUIET_CHECKS
  generate_pawn_moves Us T pos target
  ++ generate_moves KNIGHT Checks pos Us target
  ++ generate_moves BISHOP Checks pos Us target
  ++ generate_moves ROOK Checks pos Us target
  ++ generate_moves QUEEN Checks pos Us target
  ++ (if T ≠ QUIET_CHECKS ∧ T ≠ EVASIONS then
      let ksq := pos.king_sq Us
      (serialize (pos.attacks_from KING ksq &&& target)).map (make_move ksq)
      ++ (if T ≠ CAPTURES ∧ (pos.can_castle_k Us ∨ pos.can_castle_q Us) then
          (if ¬ pos.castling_impeded_k Us ∧ pos.can_castle_k Us then
            [make_special CASTLING ksq (pos.castling_rook_k Us) KNIGHT] else [])
          ++ (if ¬ pos.castling_impeded_q Us ∧ pos.can_castle_q Us then
            [make_special CASTLING ksq (pos.castling_rook_q Us) KNIGHT] else [])
          else [])
      else [])

/-- generate<Type> for CAPTURES, QUIETS and NON_EVASIONS (movegen.cpp): the
target set is selected by the mode, then generate_all runs for the side to
move. -/
def generate (T : GenType) (pos : Position) : List Move :=
  let us := pos.side_to_move
  let target := if T = CAPTURES then pos.byColor us.opp
                else if T = QUIETS then bbNot pos.pieces
                else if T = NON_EVASIONS then bbNot (pos.byColor us) else 0
  generate_all us T pos target

/-- generate<EVASIONS> (movegen.cpp): all pseudo-legal check evasions when
the side to move is in check. -/
def generateEvasions (pos : Position) : List Move :=
  let us := pos.side_to_move
  let ksq := pos.king_sq us
  let sliders := pos.checkersBB &&& bbNot (pos.pieces_t KNIGHT ||| pos.pieces_t PAWN)
  -- squares attacked by slider checkers, removed from the king evasions
  let sliderAttacks := (serialize sliders).foldl
    (fun acc checksq => acc ||| (line_bb checksq ksq ^^^ sqbb checksq)) 0
  let b := pos.attacks_from KING ksq &&& bbNot (pos.byColor us) &&& bbNot sliderAttacks
  let kingMoves := (serialize b).map (make_move ksq)
  if more_than_one pos.checkersBB then kingMoves  -- double check: king moves only
  else
    let checksq := lsb pos.checkersBB
    let target := between_bb checksq ksq ||| sqbb checksq
    kingMoves ++ generate_all us EVASIONS pos target

/-- The erase loop of generate<LEGAL> (movegen.cpp): scan the list from the
front; an entry that fails the legality check is overwritten by the last
entry, which is then popped, and the cursor advances.  (The source spells the
vector v; moveList is the only vector in scope.) -/
def legalFilterLoop (pos : Position) (cond : Move → Bool) :
    Nat → List Move → Nat → List Move
  | 0, l, _ => l
  | fuel + 1, l, i =>
    if i < l.length then
      let m := l.getD i MOVE_NONE
      if cond m && ! pos.legal m then
        legalFilterLoop pos cond fuel
          ((l.set i (l.getD (l.length - 1) MOVE_NONE)).dropLast) (i + 1)
      else legalFilterLoop pos cond fuel l (i + 1)
    else l

/-- generate<LEGAL> (movegen.cpp): evasions when in check, non-evasions
otherwise, then the erase loop above with the pinned/king/en-passant
condition. -/
def generateLegal (pos : Position) : List Move :=
  let us := pos.side_to_move
  let pinned := pos.blockers_for_king us &&& pos.byColor us
  let ksq := pos.king_sq us
  let l := if pos.checkersBB ≠ 0 then generateEvasions pos
           else generate NON_EVASIONS pos
  legalFilterLoop pos
    (fun m => decide (pinned ≠ 0) || decide (m.from_sq = ksq) ||
      decide (m.mtype = ENPASSANT)) (l.length + 1) l 0

/-! ### Move picking (movepick.cpp) -/

/-- ExtMove (movegen.h): a move with an ordering score. -/
structure ExtMove where
  move : Move
  value : Int
deriving DecidableEq, Repr

/-- The default ExtMove (MOVE_NONE with value 0, as the ExtMove default
constructor), used as the out-of-range default of list reads. -/
def em0 : ExtMove := ⟨MOVE_NONE, 0⟩

/-- Modelled from the spec: ONE_PLY = 1 (types.h depth unit). -/
def ONE_PLY : Int := 1

/-- Modelled from the spec: INT_MIN of a 32-bit int, the consumed-entry
sentinel of the picker loops. -/
def INT_MIN : Int := -2147483648

/-- The Stages enum of movepick.cpp, as numeric values (the source increments
the stage with ++ and +=). -/
def MAIN_SEARCH : Nat := 0

/-- Stage CAPTURES_INIT (movepick.cpp enum Stages). -/
def CAPTURES_INIT : Nat := 1

/-- Stage GOOD_CAPTURES (movepick.cpp enum Stages). -/
def GOOD_CAPTURES : Nat := 2

/-- Stage KILLERS (movepick.cpp enum Stages). -/
def KILLERS : Nat := 3

/-- Stage COUNTERMOVE (movepick.cpp enum Stages). -/
def COUNTERMOVE : Nat := 4

/-- Stage QUIET_INIT (movepick.cpp enum Stages). -/
def QUIET_INIT : Nat := 5

/-- Stage QUIET (movepick.cpp enum Stages). -/
def QUIET : Nat := 6

/-- Stage BAD_CAPTURES (movepick.cpp enum Stages). -/
def BAD_CAPTURES : Nat := 7

/-- Stage EVASION (movepick.cpp enum Stages). -/
def EVASION : Nat := 8

/-- Stage EVASIONS_INIT (movepick.cpp enum Stages). -/
def EVASIONS_INIT : Nat := 9

/-- Stage ALL_EVASIONS (movepick.cpp enum Stages). -/
def ALL_EVASIONS : Nat := 10

/-- Stage PROBCUT (movepick.cpp enum Stages). -/
def PROBCUT : Nat := 11

/-- Stage PROBCUT_INIT (movepick.cpp enum Stages). -/
def PROBCUT_INIT : Nat := 12

/-- Stage PROBCUT_CAPTURES (movepick.cpp enum Stages). -/
def PROBCUT_CAPTURES : Nat := 13

/-- Stage QSEARCH (movepick.cpp enum Stages). -/
def QSEARCH : Nat := 14

/-- The inner insertion loop of partial_insertion_sort: shift smaller-valued
sorted entries up one slot, then store tmp (movepick.cpp, the for (q = ...)
loop; ExtMove comparison is by value, movegen.h operator<). -/
def insLoop : List ExtMove → Nat → ExtMove → List ExtMove
  | l, 0, tmp => l.set 0 tmp
  | l, q + 1, tmp =>
      if (l.getD q em0).value < tmp.value then
        insLoop (l.set (q + 1) (l.getD q em0)) q tmp
      else l.set (q + 1) tmp

/-- The outer loop of partial_insertion_sort over the scan index p, with the
sorted-region bound se (sortedEnd).  The fuel argument only bounds the scan:
p increases by one per step, so length-of-list fuel is never exhausted. -/
def pisLoop (limit : Int) : Nat → List ExtMove → Nat → Nat → List ExtMove
  | 0, l, _, _ => l
  | fuel + 1, l, se, p =>
      if p < l.length then
        if limit ≤ (l.getD p em0).value then
          let tmp := l.getD p em0
          let l1 := l.set p (l.getD (se + 1) em0)
          pisLoop limit fuel (insLoop l1 (se + 1) tmp) (se + 1) (p + 1)
        else pisLoop limit fuel l se (p + 1)
      else l

/-- partial_insertion_sort(begin, end, limit) (movepick.cpp) on the list that
models the [begin, end) segment: sortedEnd starts at begin (se = 0) and the
scan starts at begin + 1 (p = 1). -/
def partial_insertion_sort (l : List ExtMove) (limit : Int) : List ExtMove :=
  pisLoop limit l.length l 0 1

/-- score<CAPTURES> per move (movepick.cpp): victim value plus capture
history. -/
def score_capture (pos : Position) (cph : Piece → Nat → PieceType → Int)
    (m : Move) : Int :=
  PieceValue (pos.piece_on m.to_sq)
    + cph (pos.moved_piece m) m.to_sq (pos.piece_on m.to_sq).type_of

/-- score<QUIETS> per move (movepick.cpp): butterfly history plus the
continuation histories 0, 1 and 3. -/
def score_quiet (pos : Position) (mh : Color → Nat → Int)
    (ch : Nat → Piece → Nat → Int) (m : Move) : Int :=
  mh pos.side_to_move (from_to m)
    + ch 0 (pos.moved_piece m) m.to_sq
    + ch 1 (pos.moved_piece m) m.to_sq
    + ch 3 (pos.moved_piece m) m.to_sq

/-- score<EVASIONS> per move (movepick.cpp): victim value minus attacker type
for captures, butterfly history minus 1 << 28 for quiets. -/
def score_evasion (pos : Position) (mh : Color → Nat → Int) (m : Move) : Int :=
  if pos.capture m then
    PieceValue (pos.piece_on m.to_sq) - (pos.moved_piece m).type_of.toInt
  else mh pos.side_to_move (from_to m) - 2 ^ 28

/-- Score a generated move list (the score<Type>() loop over *this). -/
def scoreList (f : Move → Int) (ms : List Move) : List ExtMove :=
  ms.map (fun m => ⟨m, f m⟩)

/-- The MovePicker state (movepick.h/.cpp): position, heuristic tables,
stage, and the moves buffer with its cur / endMoves / endBadCaptures
cursors. -/
structure MovePicker where
  pos : Position
  mainHistory : Color → Nat → Int
  captureHistory : Piece → Nat → PieceType → Int
  contHistory : Nat → Piece → Nat → Int
  countermove : Move
  killers : Move × Move
  depth : Int
  threshold : Int
  ttMove : Move
  stage : Nat
  moves : List ExtMove
  cur : Nat
  endMoves : Nat
  endBadCaptures : Nat

/-- The MovePicker constructor for the main search (movepick.cpp): stage is
EVASION when in check else MAIN_SEARCH, the transposition move is kept only
when pseudo-legal, and a missing transposition move skips the first stage. -/
def mkMovePickerMain (p : Position) (ttm : Move) (d : Int)
    (mh : Color → Nat → Int) (cph : Piece → Nat → PieceType → Int)
    (ch : Nat → Piece → Nat → Int) (cm : Move) (killers_p : Move × Move) :
    MovePicker :=
  let stage0 := if p.checkersBB ≠ 0 then EVASION else MAIN_SEARCH
  let ttMove := if ttm ≠ MOVE_NONE ∧ p.pseudo_legal ttm then ttm else MOVE_NONE
  { pos := p, mainHistory := mh, captureHistory := cph, contHistory := ch,
    countermove := cm, killers := killers_p, depth := d, threshold := 0,
    ttMove := ttMove,
    stage := stage0 + (if ttMove = MOVE_NONE then 1 else 0),
    moves := [], cur := 0, endMoves := 0, endBadCaptures := 0 }

/-- The MovePicker constructor for ProbCut (movepick.cpp): the transposition
move is kept only when pseudo-legal, a capture, and passing the SEE
threshold.  The histories not passed by this constructor are left empty. -/
def mkMovePickerProbCut (p : Position) (ttm : Move) (th : Int)
    (cph : Piece → Nat → PieceType → Int) : MovePicker :=
  let ttMove := if ttm ≠ MOVE_NONE ∧ p.pseudo_legal ttm ∧ p.capture ttm ∧
      p.see_ge ttm th then ttm else MOVE_NONE
  { pos := p, mainHistory := fun _ _ => 0, captureHistory := cph,
    contHistory := fun _ _ _ => 0, countermove := MOVE_NONE,
    killers := (MOVE_NONE, MOVE_NONE), depth := 0, threshold := th,
    ttMove := ttMove,
    stage := PROBCUT + (if ttMove = MOVE_NONE then 1 else 0),
    moves := [], cur := 0, endMoves := 0, endBadCaptures := 0 }

/-- std::max_element(cur, endMoves) on the moves list: the index of the first
entry of [cur, endM) no later entry exceeds (ExtMove comparison is by value),
none for an empty range. -/
def max_element (l : List ExtMove) (cur endM : Nat) : Option Nat :=
  match (List.range endM).drop cur with
  | [] => none
  | j :: rest => some (rest.foldl
      (fun best i => if (l.getD best em0).value < (l.getD i em0).value then i else best) j)

/-- The GOOD_CAPTURES selection loop of next_move (movepick.cpp): pick the
max-scored remaining capture; stop at the bad-capture sentinel; skip the
transposition move; a capture failing the SEE test is flagged INT_MIN + 1 for
the bad-capture sweep, but the unconditional assignment at the bottom of the
loop body then overwrites the flag with INT_MIN (both writes are kept here).
Returns the move together with its recorded score. -/
def good_captures_loop : Nat → MovePicker → Option (Move × Int) × MovePicker
  | 0, st => (none, st)
  | fuel + 1, st =>
    match max_element st.moves st.cur st.endMoves with
    | none => (none, st)
    | some i =>
      let e := st.moves.getD i em0
      if e.value ≤ INT_MIN + 1 then (none, st)
      else if e.move ≠ st.ttMove then
        if st.pos.see_ge e.move (Int.tdiv (-55 * e.value) 1024) then
          (some (e.move, e.value), {st with moves := st.moves.set i ⟨e.move, INT_MIN⟩})
        else
          good_captures_loop fuel
            {st with moves := (st.moves.set i ⟨e.move, INT_MIN + 1⟩).set i ⟨e.move, INT_MIN⟩}
      else good_captures_loop fuel {st with moves := st.moves.set i ⟨e.move, INT_MIN⟩}

/-- The bad-capture sweep after the GOOD_CAPTURES loop (movepick.cpp): copy
every entry still flagged INT_MIN + 1 to the front of the buffer, advancing
endBadCaptures. -/
def bad_sweep : Nat → List ExtMove → Nat → Nat → Nat → List ExtMove × Nat
  | 0, l, ebc, _, _ => (l, ebc)
  | fuel + 1, l, ebc, idx, endM =>
    if idx < endM then
      let e := l.getD idx em0
      if e.value = INT_MIN + 1 then
        bad_sweep fuel (l.set ebc e) (ebc + 1) (idx + 1) endM
      else bad_sweep fuel l ebc (idx + 1) endM
    else (l, ebc)

/-- The killer[0] condition at the end of the GOOD_CAPTURES case
(movepick.cpp). -/
def k0Cond (st : MovePicker) : Prop :=
  st.killers.1 ≠ MOVE_NONE ∧ st.killers.1 ≠ st.ttMove ∧
  st.pos.pseudo_legal st.killers.1 = true ∧ st.pos.capture st.killers.1 = false

/-- The killer[1] condition of the KILLERS case (movepick.cpp). -/
def k1Cond (st : MovePicker) : Prop :=
  st.killers.2 ≠ MOVE_NONE ∧ st.killers.2 ≠ st.ttMove ∧
  st.pos.pseudo_legal st.killers.2 = true ∧ st.pos.capture st.killers.2 = false

/-- The countermove condition of the COUNTERMOVE case (movepick.cpp). -/
def cmCond (st : MovePicker) : Prop :=
  st.countermove ≠ MOVE_NONE ∧ st.countermove ≠ st.ttMove ∧
  st.countermove ≠ st.killers.1 ∧ st.countermove ≠ st.killers.2 ∧
  st.pos.pseudo_legal st.countermove = true ∧ st.pos.capture st.countermove = false

instance (st : MovePicker) : Decidable (k0Cond st) := by unfold k0Cond; infer_instance

instance (st : MovePicker) : Decidable (k1Cond st) := by unfold k1Cond; infer_instance

instance (st : MovePicker) : Decidable (cmCond st) := by unfold cmCond; infer_instance

/-- The QUIET stage loop of next_move (movepick.cpp): serve the sorted quiet
segment in order; with skipQuiets the loop stops at the first entry scored
below VALUE_ZERO; moves equal to the transposition move, a killer or the
countermove are skipped.  Returns the move with its recorded score. -/
def quiet_loop (skipQuiets : Bool) : Nat → MovePicker → Option (Move × Int) × MovePicker
  | 0, st => (none, st)
  | fuel + 1, st =>
    if st.cur < st.endMoves ∧
        (skipQuiets = false ∨ 0 ≤ (st.moves.getD st.cur em0).value) then
      let e := st.moves.getD st.cur em0
      let st1 := {st with cur := st.cur + 1}
      if e.move ≠ st.ttMove ∧ e.move ≠ st.killers.1 ∧ e.move ≠ st.killers.2 ∧
          e.move ≠ st.countermove then
        (some (e.move, e.value), st1)
      else quiet_loop skipQuiets fuel st1
    else (none, st)

/-- The ALL_EVASIONS selection loop of next_move (movepick.cpp): pick the
max-scored remaining evasion, flag it consumed, skip the transposition move.
Returns the move with its recorded score. -/
def evasions_loop : Nat → MovePicker → Option (Move × Int) × MovePicker
  | 0, st => (none, st)
  | fuel + 1, st =>
    match max_element st.moves st.cur st.endMoves with
    | none => (none, st)
    | some i =>
      let e := st.moves.getD i em0
      if e.value = INT_MIN then (none, st)
      else
        let st1 := {st with moves := st.moves.set i ⟨e.move, INT_MIN⟩}
        if e.move ≠ st.ttMove then (some (e.move, e.value), st1)
        else evasions_loop fuel st1

/-- The PROBCUT_CAPTURES selection loop of next_move (movepick.cpp): as the
evasion loop, but a move is returned only when it also passes the SEE
threshold (the source assigns INT_MIN once more before returning). -/
def probcut_loop : Nat → MovePicker → Option (Move × Int) × MovePicker
  | 0, st => (none, st)
  | fuel + 1, st =>
    match max_element st.moves st.cur st.endMoves with
    | none => (none, st)
    | some i =>
      let e := st.moves.getD i em0
      if e.value = INT_MIN then (none, st)
      else
        let st1 := {st with moves := st.moves.set i ⟨e.move, INT_MIN⟩}
        if e.move ≠ st.ttMove ∧ st.pos.see_ge e.move st.threshold then
          (some (e.move, e.value), {st1 with moves := st1.moves.set i ⟨e.move, INT_MIN⟩})
        else probcut_loop fuel st1

/-- case BAD_CAPTURES of next_move (movepick.cpp). -/
def nm_bad_captures (st : MovePicker) : Move × MovePicker :=
  if st.cur < st.endBadCaptures then
    ((st.moves.getD st.cur em0).move, {st with cur := st.cur + 1})
  else (MOVE_NONE, st)

/-- case QUIET of next_move (movepick.cpp); on exhaustion the stage advances,
cur is reset to the beginning of the bad captures, and control falls through
to BAD_CAPTURES. -/
def nm_quiet (skipQuiets : Bool) (st : MovePicker) : Move × MovePicker :=
  match quiet_loop skipQuiets (st.endMoves - st.cur + 1) st with
  | (some mv, st1) => (mv.1, st1)
  | (none, st1) => nm_bad_captures {st1 with stage := st1.stage + 1, cur := 0}

/-- case QUIET_INIT of next_move (movepick.cpp): generate and score the
quiets behind the bad captures, partially sort them down to the depth-scaled
limit, and fall through to QUIET. -/
def nm_quiet_init (skipQuiets : Bool) (st : MovePicker) : Move × MovePicker :=
  let quiets := generate QUIETS st.pos
  let scored := scoreList (score_quiet st.pos st.mainHistory st.contHistory) quiets
  let sorted := partial_insertion_sort scored (Int.tdiv (-4000 * st.depth) ONE_PLY)
  nm_quiet skipQuiets
    {st with cur := st.endBadCaptures,
             moves := st.moves.take st.endBadCaptures ++ sorted,
             endMoves := st.endBadCaptures + scored.length,
             stage := st.stage + 1}

/-- case COUNTERMOVE of next_move (movepick.cpp). -/
def nm_countermove (skipQuiets : Bool) (st : MovePicker) : Move × MovePicker :=
  let st := {st with stage := st.stage + 1}
  if cmCond st then (st.countermove, st) else nm_quiet_init skipQuiets st

/-- case KILLERS of next_move (movepick.cpp): the second killer is tested
against MOVE_NONE, the transposition move, pseudo-legality and being a
capture (there is no comparison with the first killer). -/
def nm_killers (skipQuiets : Bool) (st : MovePicker) : Move × MovePicker :=
  let st := {st with stage := st.stage + 1}
  if k1Cond st then (st.killers.2, st) else nm_countermove skipQuiets st

/-- case GOOD_CAPTURES of next_move (movepick.cpp): run the selection loop;
on exhaustion sweep the bad-capture flags to the front of the buffer, advance
the stage, and yield killer[0] when it qualifies, else fall through. -/
def nm_good_captures (skipQuiets : Bool) (st : MovePicker) : Move × MovePicker :=
  match good_captures_loop (st.endMoves - st.cur + 1) st with
  | (some mv, st1) => (mv.1, st1)
  | (none, st1) =>
    let swept := bad_sweep (st1.endMoves + 1) st1.moves st1.endBadCaptures 0 st1.endMoves
    let st2 := {st1 with moves := swept.1, endBadCaptures := swept.2,
                         stage := st1.stage + 1}
    if k0Cond st2 then (st2.killers.1, st2) else nm_killers skipQuiets st2

/-- case CAPTURES_INIT of next_move (movepick.cpp): generate and score the
captures from the start of the buffer and fall through to GOOD_CAPTURES. -/
def nm_captures_init (skipQuiets : Bool) (st : MovePicker) : Move × MovePicker :=
  let caps := generate CAPTURES st.pos
  let scored := scoreList (score_capture st.pos st.captureHistory) caps
  nm_good_captures skipQuiets
    {st with endBadCaptures := 0, cur := 0, moves := scored,
             endMoves := scored.length, stage := st.stage + 1}

/-- case ALL_EVASIONS of next_move (movepick.cpp). -/
def nm_all_evasions (st : MovePicker) : Move × MovePicker :=
  match evasions_loop (st.endMoves - st.cur + 1) st with
  | (some mv, st1) => (mv.1, st1)
  | (none, st1) => (MOVE_NONE, st1)

/-- case EVASIONS_INIT of next_move (movepick.cpp). -/
def nm_evasions_init (st : MovePicker) : Move × MovePicker :=
  let evs := generateEvasions st.pos
  let scored := scoreList (score_evasion st.pos st.mainHistory) evs
  nm_all_evasions
    {st with cur := 0, moves := scored, endMoves := scored.length,
             stage := st.stage + 1}

/-- case PROBCUT_CAPTURES of next_move (movepick.cpp). -/
def nm_probcut_captures (st : MovePicker) : Move × MovePicker :=
  match probcut_loop (st.endMoves - st.cur + 1) st with
  | (some mv, st1) => (mv.1, st1)
  | (none, st1) => (MOVE_NONE, st1)

/-- case PROBCUT_INIT of next_move (movepick.cpp). -/
def nm_probcut_init (st : MovePicker) : Move × MovePicker :=
  let caps := generate CAPTURES st.pos
  let scored := scoreList (score_capture st.pos st.captureHistory) caps
  nm_probcut_captures
    {st with cur := 0, moves := scored, endMoves := scored.length,
             stage := st.stage + 1}

/-- next_move(skipQuiets) (movepick.cpp), as the stage dispatch over the
case chain above.  The quiescence stages, which no claim is about, fall to
the sentinel default. -/
def next_move (st : MovePicker) (skipQuiets : Bool) : Move × MovePicker :=
  if st.stage = MAIN_SEARCH ∨ st.stage = EVASION ∨ st.stage = QSEARCH ∨
      st.stage = PROBCUT then
    (st.ttMove, {st with stage := st.stage + 1})
  else if st.stage = CAPTURES_INIT then nm_captures_init skipQuiets st
  else if st.stage = GOOD_CAPTURES then nm_good_captures skipQuiets st
  else if st.stage = KILLERS then nm_killers skipQuiets st
  else if st.stage = COUNTERMOVE then nm_countermove skipQuiets st
  else if st.stage = QUIET_INIT then nm_quiet_init skipQuiets st
  else if st.stage = QUIET then nm_quiet skipQuiets st
  else if st.stage = BAD_CAPTURES then nm_bad_captures st
  else if st.stage = EVASIONS_INIT then nm_evasions_init st
  else if st.stage = ALL_EVASIONS then nm_all_evasions st
  else if st.stage = PROBCUT_INIT then nm_probcut_init st
  else if st.stage = PROBCUT_CAPTURES then nm_probcut_captures st
  else (MOVE_NONE, st)

/-- Repeatedly calling next_move, collecting the returned moves (the calling
pattern of spec 8: repeatedly calling next until the sentinel). -/
def runMoves (skipQuiets : Bool) : MovePicker → Nat → List Move
  | _, 0 => []
  | st, n + 1 =>
      let r := next_move st skipQuiets
      r.1 :: runMoves skipQuiets r.2 n

/-! ### Concrete positions used as inputs -/

/-- Piece placement of position A: white Ka1, Nc3; black Kh8, Pd5, Pe6;
white to move, not in check, no castling rights, no en-passant square. -/
def pieceOnA (s : Nat) : Piece :=
  if s = 0 then Piece.mk WHITE KING
  else if s = 18 then Piece.mk WHITE KNIGHT
  else if s = 35 then Piece.mk BLACK PAWN
  else if s = 44 then Piece.mk BLACK PAWN
  else if s = 63 then Piece.mk BLACK KING
  else Piece.none

/-- The only pseudo-legal capture of position A: Nc3xd5 (d5 is defended by
the e6 pawn, so the capture loses material). -/
def capturesA : List Move := [make_move 18 35]

/-- The pseudo-legal quiet moves of position A, in generation order. -/
def quietsA : List Move :=
  [make_move 18 1, make_move 18 3, make_move 18 8, make_move 18 12,
   make_move 18 24, make_move 18 28, make_move 18 33,
   make_move 0 1, make_move 0 8, make_move 0 9]

/-- Position A as a position record (all moves are legal; the SEE of the
lone capture is -654, a knight for a defended pawn). -/
def posA : Position :=
  { side_to_move := WHITE
    byColor := fun c => if c = WHITE then 2 ^ 0 + 2 ^ 18 else 2 ^ 35 + 2 ^ 44 + 2 ^ 63
    byTypeC := fun c pt =>
      if c = WHITE ∧ pt = KING then 2 ^ 0
      else if c = WHITE ∧ pt = KNIGHT then 2 ^ 18
      else if c = BLACK ∧ pt = PAWN then 2 ^ 35 + 2 ^ 44
      else if c = BLACK ∧ pt = KING then 2 ^ 63
      else 0
    king_sq := fun c => if c = WHITE then 0 else 63
    checkersBB := 0
    ep_square := SQ_NONE
    blockers_for_king := fun _ => 0
    slider_attacks_from := fun _ _ => 0
    check_squares := fun _ => 0
    squares_l := fun c pt => if c = WHITE ∧ pt = KNIGHT then [18] else []
    can_castle_k := fun _ => false
    can_castle_q := fun _ => false
    castling_impeded_k := fun _ => false
    castling_impeded_q := fun _ => false
    castling_rook_k := fun _ => 0
    castling_rook_q := fun _ => 0
    legal := fun m => decide (m ∈ capturesA ++ quietsA)
    pseudo_legal := fun m => decide (m ∈ capturesA ++ quietsA)
    capture := fun m => decide (m ∈ capturesA)
    see_ge := fun m t => decide (t ≤ if m = make_move 18 35 then (-654 : Int) else 0)
    piece_on := pieceOnA
    moved_piece := fun m => pieceOnA m.from_sq }

/-- Empty butterfly history. -/
def mh0 : Color → Nat → Int := fun _ _ => 0

/-- Empty capture history. -/
def cph0 : Piece → Nat → PieceType → Int := fun _ _ _ => 0

/-- Empty continuation history. -/
def ch0 : Nat → Piece → Nat → Int := fun _ _ _ => 0

/-- A main-search picker on position A with no transposition move, no
killers, no countermove and empty histories, at depth 1. -/
def pickerA : MovePicker :=
  mkMovePickerMain posA MOVE_NONE 1 mh0 cph0 ch0 MOVE_NONE (MOVE_NONE, MOVE_NONE)

/-- As pickerA, but both killer slots hold the same quiet move Nc3-a4. -/
def pickerDupKillers : MovePicker :=
  mkMovePickerMain posA MOVE_NONE 1 mh0 cph0 ch0 MOVE_NONE
    (make_move 18 24, make_move 18 24)

/-- A butterfly history that scores the first generated quiet of position A
(Nc3-b1) below every other quiet: quiet scores are then -9000, -8000, ...,
all below the depth-1 sorting limit -4000. -/
def mhAsc : Color → Nat → Int := fun _ k => if k = from_to (make_move 18 1) then -9000 else -8000

/-- A main-search picker on position A whose quiet scores are all below the
sorting limit and increase along the generation order. -/
def pickerAsc : MovePicker :=
  mkMovePickerMain posA MOVE_NONE 1 mhAsc cph0 ch0 MOVE_NONE (MOVE_NONE, MOVE_NONE)

/-- Piece placement of position B: white Ke1, Ne2; black Re8, Kh8; white to
move; the knight on e2 is pinned on the e-file. -/
def pieceOnB (s : Nat) : Piece :=
  if s = 4 then Piece.mk WHITE KING
  else if s = 12 then Piece.mk WHITE KNIGHT
  else if s = 60 then Piece.mk BLACK ROOK
  else if s = 63 then Piece.mk BLACK KING
  else Piece.none

/-- The legal moves of position B (the four king steps off the e-file). -/
def legalB : List Move :=
  [make_move 4 3, make_move 4 5, make_move 4 11, make_move 4 13]

/-- The pseudo-legal moves of position B: the six (all illegal) moves of the
pinned knight and the four legal king moves. -/
def pseudoB : List Move :=
  [make_move 12 2, make_move 12 6, make_move 12 18, make_move 12 22,
   make_move 12 27, make_move 12 29] ++ legalB

/-- Position B as a position record. -/
def posB : Position :=
  { side_to_move := WHITE
    byColor := fun c => if c = WHITE then 2 ^ 4 + 2 ^ 12 else 2 ^ 60 + 2 ^ 63
    byTypeC := fun c pt =>
      if c = WHITE ∧ pt = KING then 2 ^ 4
      else if c = WHITE ∧ pt = KNIGHT then 2 ^ 12
      else if c = BLACK ∧ pt = ROOK then 2 ^ 60
      else if c = BLACK ∧ pt = KING then 2 ^ 63
      else 0
    king_sq := fun c => if c = WHITE then 4 else 63
    checkersBB := 0
    ep_square := SQ_NONE
    blockers_for_king := fun c => if c = WHITE then 2 ^ 12 else 0
    slider_attacks_from := fun _ _ => 0
    check_squares := fun _ => 0
    squares_l := fun c pt => if c = WHITE ∧ pt = KNIGHT then [12] else []
    can_castle_k := fun _ => false
    can_castle_q := fun _ => false
    castling_impeded_k := fun _ => false
    castling_impeded_q := fun _ => false
    castling_rook_k := fun _ => 0
    castling_rook_q := fun _ => 0
    legal := fun m => decide (m ∈ legalB)
    pseudo_legal := fun m => decide (m ∈ pseudoB)
    capture := fun m => decide (m.to_sq = 60 ∨ m.to_sq = 63)
    see_ge := fun _ _ => true
    piece_on := pieceOnB
    moved_piece := fun m => pieceOnB m.from_sq }

/-- Piece placement of position C: white Ke1; black Re8, Bh4, Kh8; white to
move and in double check from the rook and the bishop. -/
def pieceOnC (s : Nat) : Piece :=
  if s = 4 then Piece.mk WHITE KING
  else if s = 31 then Piece.mk BLACK BISHOP
  else if s = 60 then Piece.mk BLACK ROOK
  else if s = 63 then Piece.mk BLACK KING
  else Piece.none

/-- The legal moves of position C (king steps off both check lines). -/
def legalC : List Move := [make_move 4 3, make_move 4 5, make_move 4 11]

/-- Position C as a position record (checkers: e8 and h4). -/
def posC : Position :=
  { side_to_move := WHITE
    byColor := fun c => if c = WHITE then 2 ^ 4 else 2 ^ 31 + 2 ^ 60 + 2 ^ 63
    byTypeC := fun c pt =>
      if c = WHITE ∧ pt = KING then 2 ^ 4
      else if c = BLACK ∧ pt = ROOK then 2 ^ 60
      else if c = BLACK ∧ pt = BISHOP then 2 ^ 31
      else if c = BLACK ∧ pt = KING then 2 ^ 63
      else 0
    king_sq := fun c => if c = WHITE then 4 else 63
    checkersBB := 2 ^ 31 + 2 ^ 60
    ep_square := SQ_NONE
    blockers_for_king := fun _ => 0
    slider_attacks_from := fun _ _ => 0
    check_squares := fun _ => 0
    squares_l := fun _ _ => []
    can_castle_k := fun _ => false
    can_castle_q := fun _ => false
    castling_impeded_k := fun _ => false
    castling_impeded_q := fun _ => false
    castling_rook_k := fun _ => 0
    castling_rook_q := fun _ => 0
    legal := fun m => decide (m ∈ legalC)
    pseudo_legal := fun m => decide (m ∈ legalC)
    capture := fun _ => false
    see_ge := fun _ _ => true
    piece_on := pieceOnC
    moved_piece := fun m => pieceOnC m.from_sq }

/-- Non-increasing recorded scores (the descending order established by
partial_insertion_sort, ExtMove comparison by value). -/
def SortedDescVal (l : List ExtMove) : Prop :=
  l.Sorted (fun a b => b.value ≤ a.value)

/-- The partial-sort guarantee on a picker's quiet segment: inside
[cur, endMoves), entries scored at or above the limit are mutually in
non-increasing order. -/
def SortedAbove (limit : Int) (st : MovePicker) : Prop :=
  ∀ j2, j2 < st.endMoves → ∀ j1, j1 < j2 → st.cur ≤ j1 →
    limit ≤ (st.moves.getD j1 em0).value → limit ≤ (st.moves.getD j2 em0).value →
    (st.moves.getD j2 em0).value ≤ (st.moves.getD j1 em0).value

/-- A picker state in the GOOD_CAPTURES stage holding two scored captures. -/
def stGC : MovePicker :=
  {pickerA with
    stage := GOOD_CAPTURES
    moves := [⟨make_move 0 1, 100⟩, ⟨make_move 0 8, 50⟩]
    cur := 0
    endMoves := 2
    endBadCaptures := 0}

/-- A picker state in the ALL_EVASIONS stage holding two scored evasions. -/
def stEV : MovePicker :=
  {pickerA with
    stage := ALL_EVASIONS
    moves := [⟨make_move 0 1, 100⟩, ⟨make_move 0 8, 50⟩]
    cur := 0
    endMoves := 2}

/-- A ProbCut picker state in the PROBCUT_CAPTURES stage holding two scored
captures. -/
def stPC : MovePicker :=
  {mkMovePickerProbCut posA MOVE_NONE 0 cph0 with
    stage := PROBCUT_CAPTURES
    moves := [⟨make_move 0 1, 100⟩, ⟨make_move 0 8, 50⟩]
    cur := 0
    endMoves := 2}

/-- A picker state in the QUIET stage holding two sorted quiets. -/
def stQ2 : MovePicker :=
  {pickerA with
    stage := QUIET
    moves := [⟨make_move 0 1, 10⟩, ⟨make_move 0 8, 5⟩]
    cur := 0
    endMoves := 2}

/-- A picker state in the QUIET stage holding one non-negatively scored
quiet. -/
def stQW : MovePicker :=
  {pickerA with
    stage := QUIET
    moves := [⟨make_move 0 1, 5⟩]
    cur := 0
    endMoves := 1}

/-- The duplicate-killer picker placed in the KILLERS stage. -/
def stKW : MovePicker := {pickerDupKillers with stage := KILLERS}

/-- A picker state in the COUNTERMOVE stage with a valid countermove. -/
def stCMW : MovePicker :=
  {pickerA with
    stage := COUNTERMOVE
    countermove := make_move 18 24}

/-- The duplicate-killer picker in the GOOD_CAPTURES stage with an empty
capture range (the loop is exhausted at once, so killer[0] is served). -/
def stGCW : MovePicker :=
  {pickerDupKillers with
    stage := GOOD_CAPTURES
    moves := []
    cur := 0
    endMoves := 0
    endBadCaptures := 0}

/-- The reference (ray-traced) attack function used in the magic-table
construction statements; its exact values are irrelevant to the path
equivalence, an injective placeholder keeps the statement honest. -/
def refC8 : Bitboard → Bitboard := fun s => 7 * s + 3

/-! ### Theorems -/

/-- C1 (code bug): on position A the capture Nc3xd5 is generated by the
captures-mode generator and classified losing by SEE, yet repeatedly calling
next_move until the MOVE_NONE sentinel never returns it: the GOOD_CAPTURES
loop overwrites the INT_MIN + 1 bad-capture flag with INT_MIN in the
unconditional assignment at the bottom of its body, so the bad-capture sweep
finds nothing and the BAD_CAPTURES stage is empty.  The eleven calls return
exactly the ten quiets and the sentinel. -/
theorem bad_capture_never_returned :
    runMoves false pickerA 11 = quietsA ++ [MOVE_NONE] ∧
    make_move 18 35 ∈ generate CAPTURES posA ∧
    posA.see_ge (make_move 18 35)
      (Int.tdiv (-55 * score_capture posA cph0 (make_move 18 35)) 1024) = false ∧
    make_move 18 35 ∉ runMoves false pickerA 11 := by decide

/-- C2 (code bug): on position B (white Ke1, Ne2 pinned by the rook e8;
black Re8, Kh8) generate<LEGAL> keeps the illegal pinned-knight move e2-f4:
the erase-by-swap step copies the last entry over the removed one but the
cursor still advances, so the swapped-in move is never validated.  The
output is the four legal king moves plus that illegal knight move. -/
theorem legal_gen_keeps_illegal_move :
    generateLegal posB =
      [make_move 4 13, make_move 4 11, make_move 4 5, make_move 4 3,
       make_move 12 29] ∧
    posB.legal (make_move 12 29) = false ∧
    make_move 12 29 ∈ generateLegal posB := by decide

/-- C4 (counterexample): on position A with the history mhAsc all quiet
scores are below the depth-1 sorting limit -4000, so partial_insertion_sort
leaves them unsorted; two consecutive next_move calls, both answered from
the QUIET stage, return moves whose recorded ordering scores strictly
increase (-9000 then -8000). -/
theorem quiet_stage_scores_increase_cex :
    (next_move pickerAsc false).2.stage = QUIET ∧
    (next_move (next_move pickerAsc false).2 false).2.stage = QUIET ∧
    (next_move pickerAsc false).1 ∈ generate QUIETS posA ∧
    (next_move (next_move pickerAsc false).2 false).1 ∈ generate QUIETS posA ∧
    score_quiet posA mhAsc ch0 (next_move pickerAsc false).1 <
      score_quiet posA mhAsc ch0 (next_move (next_move pickerAsc false).2 false).1 := by
  decide

/-- C5 (counterexample): next_move with skipQuiets = true still returns a
quiets-mode move from the QUIET stage when its recorded score is
non-negative: the loop guard only stops at entries scored below
VALUE_ZERO. -/
theorem skip_quiets_returns_quiet_cex :
    (next_move pickerA true).1 ∈ generate QUIETS posA ∧
    (next_move pickerA true).2.stage = QUIET ∧
    0 ≤ score_quiet posA mh0 ch0 (next_move pickerA true).1 := by decide

/-- C6 (counterexample): when both killer slots hold the same valid quiet
move Nc3-a4, two consecutive next_move calls return it twice — the KILLERS
case never compares killer[1] with killer[0]. -/
theorem duplicate_killer_returned_twice_cex :
    pickerDupKillers.killers.1 = pickerDupKillers.killers.2 ∧
    runMoves false pickerDupKillers 2 = [make_move 18 24, make_move 18 24] := by
  decide

/-- C7: whenever more than one checker is set, generate<EVASIONS> returns
early after the king-move block, so every produced move has the side-to-move
king square as its origin. -/
theorem evasions_double_check_only_king (pos : Position)
    (h : more_than_one pos.checkersBB = true) :
    ∀ m ∈ generateEvasions pos, m.from_sq = pos.king_sq pos.side_to_move := by
  intro m hm
  unfold generateEvasions at hm
  simp only [h, if_true, List.mem_map] at hm
  obtain ⟨a, _, rfl⟩ := hm
  rfl

/-- Witness for C7: position C is a double check (rook e8, bishop h4), the
king step e1-d1 is among its evasions, and the theorem yields its origin. -/
theorem evasions_double_check_only_king_w :
    more_than_one posC.checkersBB = true ∧
    make_move 4 3 ∈ generateEvasions posC ∧
    (make_move 4 3).from_sq = posC.king_sq posC.side_to_move :=
  ⟨by decide, by decide,
    evasions_double_check_only_king posC (by decide) (make_move 4 3) (by decide)⟩

/-- C5 (amended): when the caller passes skipQuiets = true, the QUIET stage
loop returns only moves whose recorded score is non-negative (instead of
skipping the quiet stage entirely). -/
theorem skip_quiets_only_nonneg (fuel : Nat) (st : MovePicker) (m : Move) (v : Int)
    (h : (quiet_loop true fuel st).1 = some (m, v)) : 0 ≤ v := by
  induction fuel generalizing st with
  | zero => simp [quiet_loop] at h
  | succ n ih =>
    rw [quiet_loop] at h
    split at h
    case isTrue hc =>
      simp only [] at h
      split at h
      · simp only [Option.some.injEq, Prod.mk.injEq] at h
        rcases hc.2 with h1 | h1
        · simp at h1
        · exact h.2 ▸ h1
      · exact ih _ h
    case isFalse => simp at h

/-- Witness for C5 (amended): a QUIET-stage state with one quiet scored 5;
the loop with skipQuiets = true returns it, and the score is
non-negative. -/
theorem skip_quiets_only_nonneg_w :
    (quiet_loop true 2 stQW).1 = some (make_move 0 1, 5) ∧ (0 : Int) ≤ 5 :=
  ⟨by decide, skip_quiets_only_nonneg 2 stQW (make_move 0 1) 5 (by decide)⟩

/-- The quiet loop never changes the stage field. -/
theorem quiet_loop_stage_eq (sq : Bool) (fuel : Nat) (st : MovePicker) :
    (quiet_loop sq fuel st).2.stage = st.stage := by
  induction fuel generalizing st with
  | zero => rfl
  | succ n ih =>
    rw [quiet_loop]
    split
    · simp only []
      split
      · rfl
      · exact ih _
    · rfl

/-- The BAD_CAPTURES case never changes the stage field. -/
theorem nm_bad_captures_stage (st : MovePicker) :
    (nm_bad_captures st).2.stage = st.stage := by
  unfold nm_bad_captures; split <;> rfl

/-- The QUIET case never lowers the stage. -/
theorem nm_quiet_stage_ge (sq : Bool) (st : MovePicker) :
    st.stage ≤ (nm_quiet sq st).2.stage := by
  unfold nm_quiet
  rcases hl : quiet_loop sq (st.endMoves - st.cur + 1) st with ⟨o, st1⟩
  have hst : st1.stage = st.stage := by
    have := quiet_loop_stage_eq sq (st.endMoves - st.cur + 1) st
    rw [hl] at this; exact this
  cases o with
  | some mv => simp [hst]
  | none => simp [nm_bad_captures_stage, hst]

/-- The QUIET_INIT case strictly raises the stage. -/
theorem nm_quiet_init_stage_ge (sq : Bool) (st : MovePicker) :
    st.stage + 1 ≤ (nm_quiet_init sq st).2.stage := by
  unfold nm_quiet_init
  have := nm_quiet_stage_ge sq
    {st with cur := st.endBadCaptures,
             moves := st.moves.take st.endBadCaptures ++
               partial_insertion_sort
                 (scoreList (score_quiet st.pos st.mainHistory st.contHistory)
                   (generate QUIETS st.pos)) (Int.tdiv (-4000 * st.depth) ONE_PLY),
             endMoves := st.endBadCaptures +
               (scoreList (score_quiet st.pos st.mainHistory st.contHistory)
                 (generate QUIETS st.pos)).length,
             stage := st.stage + 1}
  simpa using this

/-- The COUNTERMOVE case strictly raises the stage. -/
theorem nm_countermove_stage_ge (sq : Bool) (st : MovePicker) :
    st.stage + 1 ≤ (nm_countermove sq st).2.stage := by
  unfold nm_countermove
  simp only []
  split
  · simp
  · have := nm_quiet_init_stage_ge sq {st with stage := st.stage + 1}
    simp only [] at this ⊢
    omega

/-- The KILLERS case strictly raises the stage. -/
theorem nm_killers_stage_ge (sq : Bool) (st : MovePicker) :
    st.stage + 1 ≤ (nm_killers sq st).2.stage := by
  unfold nm_killers
  simp only []
  split
  · simp
  · have := nm_countermove_stage_ge sq {st with stage := st.stage + 1}
    simp only [] at this ⊢
    omega

/-- next_move dispatches the KILLERS stage to its case. -/
theorem next_move_at_killers (st : MovePicker) (sq : Bool) (h : st.stage = KILLERS) :
    next_move st sq = nm_killers sq st := by
  unfold next_move
  rw [h]
  norm_num [MAIN_SEARCH, EVASION, QSEARCH, PROBCUT, CAPTURES_INIT, GOOD_CAPTURES,
    KILLERS]

/-- next_move dispatches the COUNTERMOVE stage to its case. -/
theorem next_move_at_countermove (st : MovePicker) (sq : Bool)
    (h : st.stage = COUNTERMOVE) : next_move st sq = nm_countermove sq st := by
  unfold next_move
  rw [h]
  norm_num [MAIN_SEARCH, EVASION, QSEARCH, PROBCUT, CAPTURES_INIT, GOOD_CAPTURES,
    KILLERS, COUNTERMOVE]

/-- next_move dispatches the GOOD_CAPTURES stage to its case. -/
theorem next_move_at_good_captures (st : MovePicker) (sq : Bool)
    (h : st.stage = GOOD_CAPTURES) : next_move st sq = nm_good_captures sq st := by
  unfold next_move
  rw [h]
  norm_num [MAIN_SEARCH, EVASION, QSEARCH, PROBCUT, CAPTURES_INIT, GOOD_CAPTURES]

/-- The GOOD_CAPTURES loop only mutates the moves buffer: position, killers,
transposition move, stage and countermove are unchanged. -/
theorem gc_loop_frame (fuel : Nat) (st : MovePicker) :
    (good_captures_loop fuel st).2.pos = st.pos ∧
    (good_captures_loop fuel st).2.killers = st.killers ∧
    (good_captures_loop fuel st).2.ttMove = st.ttMove ∧
    (good_captures_loop fuel st).2.stage = st.stage ∧
    (good_captures_loop fuel st).2.countermove = st.countermove := by
  induction fuel generalizing st with
  | zero => exact ⟨rfl, rfl, rfl, rfl, rfl⟩
  | succ n ih =>
    rw [good_captures_loop]
    rcases hm : max_element st.moves st.cur st.endMoves with _ | i
    · exact ⟨rfl, rfl, rfl, rfl, rfl⟩
    · simp only []
      split
      · exact ⟨rfl, rfl, rfl, rfl, rfl⟩
      · split
        · split
          · exact ⟨rfl, rfl, rfl, rfl, rfl⟩
          · exact ih _
        · exact ih _

/-- C6 (amended): once the good captures are exhausted the picker serves, in
order, killer[0] (post-stage KILLERS), killer[1] (post-stage COUNTERMOVE)
and the countermove (post-stage QUIET_INIT).  Each killer is returned iff it
is not MOVE_NONE, differs from the transposition move, is pseudo-legal and
is not a capture — without any comparison between the two killers — while
the countermove additionally must differ from both killers. -/
theorem refutation_stage_behaviour :
    (∀ (st : MovePicker) (sq : Bool), st.stage = KILLERS →
      (((next_move st sq).1 = st.killers.2 ∧ (next_move st sq).2.stage = COUNTERMOVE) ↔
        (st.killers.2 ≠ MOVE_NONE ∧ st.killers.2 ≠ st.ttMove ∧
         st.pos.pseudo_legal st.killers.2 = true ∧
         st.pos.capture st.killers.2 = false))) ∧
    (∀ (st : MovePicker) (sq : Bool), st.stage = COUNTERMOVE →
      (((next_move st sq).1 = st.countermove ∧ (next_move st sq).2.stage = QUIET_INIT) ↔
        (st.countermove ≠ MOVE_NONE ∧ st.countermove ≠ st.ttMove ∧
         st.countermove ≠ st.killers.1 ∧ st.countermove ≠ st.killers.2 ∧
         st.pos.pseudo_legal st.countermove = true ∧
         st.pos.capture st.countermove = false))) ∧
    (∀ (st : MovePicker) (sq : Bool), st.stage = GOOD_CAPTURES →
      (good_captures_loop (st.endMoves - st.cur + 1) st).1 = none →
      (((next_move st sq).1 = st.killers.1 ∧ (next_move st sq).2.stage = KILLERS) ↔
        (st.killers.1 ≠ MOVE_NONE ∧ st.killers.1 ≠ st.ttMove ∧
         st.pos.pseudo_legal st.killers.1 = true ∧
         st.pos.capture st.killers.1 = false))) := by
  refine ⟨?_, ?_, ?_⟩
  · intro st sq hst
    rw [next_move_at_killers st sq hst]
    unfold nm_killers
    simp only []
    by_cases hc : k1Cond {st with stage := st.stage + 1}
    · rw [if_pos hc]
      have hc' : k1Cond st := by simpa [k1Cond] using hc
      simp [hst, KILLERS, COUNTERMOVE]
      exact hc'
    · rw [if_neg hc]
      have hc' : ¬ k1Cond st := by simpa [k1Cond] using hc
      have hge := nm_countermove_stage_ge sq {st with stage := st.stage + 1}
      simp only [] at hge
      constructor
      · intro ⟨_, h2⟩
        rw [h2] at hge
        rw [hst] at hge
        norm_num [KILLERS, COUNTERMOVE] at hge
      · intro h
        exact absurd h hc'
  · intro st sq hst
    rw [next_move_at_countermove st sq hst]
    unfold nm_countermove
    simp only []
    by_cases hc : cmCond {st with stage := st.stage + 1}
    · rw [if_pos hc]
      have hc' : cmCond st := by simpa [cmCond] using hc
      simp [hst, COUNTERMOVE, QUIET_INIT]
      exact hc'
    · rw [if_neg hc]
      have hc' : ¬ cmCond st := by simpa [cmCond] using hc
      have hge := nm_quiet_init_stage_ge sq {st with stage := st.stage + 1}
      simp only [] at hge
      constructor
      · intro ⟨_, h2⟩
        rw [h2] at hge
        rw [hst] at hge
        norm_num [COUNTERMOVE, QUIET_INIT] at hge
      · intro h
        exact absurd h hc'
  · intro st sq hst hloop
    rw [next_move_at_good_captures st sq hst]
    unfold nm_good_captures
    rcases hl : good_captures_loop (st.endMoves - st.cur + 1) st with ⟨o, st1⟩
    rw [hl] at hloop
    simp only [] at hloop
    subst hloop
    have hfr := gc_loop_frame (st.endMoves - st.cur + 1) st
    rw [hl] at hfr
    simp only [] at hfr
    obtain ⟨hpos, hkill, htt, hstage, hcm⟩ := hfr
    simp only []
    by_cases hc : k0Cond {st1 with
      moves := (bad_sweep (st1.endMoves + 1) st1.moves st1.endBadCaptures 0 st1.endMoves).1,
      endBadCaptures := (bad_sweep (st1.endMoves + 1) st1.moves st1.endBadCaptures 0 st1.endMoves).2,
      stage := st1.stage + 1}
    · rw [if_pos hc]
      have hc' : k0Cond st := by
        simp only [k0Cond] at hc ⊢
        rw [← hpos, ← hkill, ← htt]
        exact hc
      simp only [hkill, hstage, hst]
      norm_num [GOOD_CAPTURES, KILLERS]
      simpa [k0Cond] using hc'
    · rw [if_neg hc]
      have hc' : ¬ k0Cond st := by
        simp only [k0Cond] at hc ⊢
        rw [← hpos, ← hkill, ← htt]
        exact hc
      have hge := nm_killers_stage_ge sq {st1 with
        moves := (bad_sweep (st1.endMoves + 1) st1.moves st1.endBadCaptures 0 st1.endMoves).1,
        endBadCaptures := (bad_sweep (st1.endMoves + 1) st1.moves st1.endBadCaptures 0 st1.endMoves).2,
        stage := st1.stage + 1}
      simp only [] at hge
      constructor
      · intro ⟨_, h2⟩
        rw [h2, hstage, hst] at hge
        norm_num [GOOD_CAPTURES, KILLERS] at hge
      · intro h
        refine absurd ?_ hc'
        simpa [k0Cond] using h

/-- Witness for C6 (amended): concrete states in each refutation stage of
position A; the duplicate killer is served as killer[1], the countermove is
served after both killers, and killer[0] is served after the (empty)
good-capture range. -/
theorem refutation_stage_behaviour_w :
    ((next_move stKW false).1 = stKW.killers.2 ∧
      (next_move stKW false).2.stage = COUNTERMOVE) ∧
    ((next_move stCMW false).1 = stCMW.countermove ∧
      (next_move stCMW false).2.stage = QUIET_INIT) ∧
    ((next_move stGCW false).1 = stGCW.killers.1 ∧
      (next_move stGCW false).2.stage = KILLERS) :=
  ⟨(refutation_stage_behaviour.1 stKW false (by decide)).mpr (by decide),
   (refutation_stage_behaviour.2.1 stCMW false (by decide)).mpr (by decide),
   (refutation_stage_behaviour.2.2 stGCW false (by decide) (by decide)).mpr (by decide)⟩

/-- Membership in serialize: the set bits below 64. -/
theorem mem_serialize {b : Bitboard} {i : Nat} :
    i ∈ serialize b ↔ i < 64 ∧ b.testBit i = true := by
  simp [serialize, List.mem_filter, List.mem_range]

/-- Completeness of the subset enumeration: any number whose set bits all
appear in bits is listed. -/
theorem subsetsOfBits_complete (bits : List Nat) (s : Nat)
    (h : ∀ i, s.testBit i = true → i ∈ bits) : s ∈ subsetsOfBits bits := by
  induction bits generalizing s with
  | nil =>
    have hs : s = 0 := by
      apply Nat.eq_of_testBit_eq
      intro i
      simp only [Nat.zero_testBit]
      by_contra hne
      simp only [Bool.not_eq_false] at hne
      exact absurd (h i hne) (List.not_mem_nil i)
    simp [hs, subsetsOfBits]
  | cons b rest ih =>
    simp only [subsetsOfBits, List.mem_append, List.mem_map]
    by_cases hb : s.testBit b = true
    · right
      refine ⟨s ^^^ (1 <<< b), ih _ ?_, ?_⟩
      · intro i hi
        rw [Nat.shiftLeft_eq, one_mul, Nat.testBit_xor, Nat.testBit_two_pow] at hi
        by_cases hib : b = i
        · subst hib; rw [hb] at hi; simp at hi
        · rw [decide_eq_false hib, Bool.xor_false] at hi
          have := h i hi
          simp only [List.mem_cons] at this
          rcases this with h1 | h1
          · exact absurd h1.symm hib
          · exact h1
      · apply Nat.eq_of_testBit_eq
        intro i
        rw [Nat.testBit_lor, Nat.testBit_xor, Nat.shiftLeft_eq, one_mul,
          Nat.testBit_two_pow]
        by_cases hib : b = i
        · subst hib; rw [hb]; simp
        · simp [decide_eq_false hib]
    · left
      apply ih
      intro i hi
      have := h i hi
      simp only [List.mem_cons] at this
      rcases this with h1 | h1
      · subst h1; exact absurd hi hb
      · exact h1

/-- Every subset of the mask is among the enumerated occupancy subsets. -/
theorem mem_subsetsOfMask (mask s : Nat) (hmask : mask < U64)
    (hs : s &&& mask = s) : s ∈ subsetsOfMask mask := by
  apply subsetsOfBits_complete
  intro i hi
  rw [mem_serialize]
  have hmi : mask.testBit i = true := by
    rw [← hs, Nat.testBit_land] at hi
    exact (Bool.and_eq_true ..).mp hi |>.2
  refine ⟨?_, hmi⟩
  by_contra hlt
  push_neg at hlt
  have : mask < 2 ^ i := lt_of_lt_of_le hmask (Nat.pow_le_pow_right (by norm_num) hlt)
  rw [Nat.testBit_lt_two_pow this] at hmi
  exact Bool.false_ne_true hmi

/-- find? returns the unique element satisfying the predicate. -/
theorem find_eq_of_unique {α : Type} (l : List α) (p : α → Bool) (x : α)
    (hx : x ∈ l) (hpx : p x = true) (huniq : ∀ y ∈ l, p y = true → y = x) :
    l.find? p = some x := by
  induction l with
  | nil => simp at hx
  | cons a t ih =>
    by_cases hpa : p a = true
    · have : a = x := huniq a (List.mem_cons_self a t) hpa
      rw [List.find?_cons_of_pos _ hpa, this]
    · rw [List.find?_cons_of_neg _ hpa]
      apply ih
      · rcases List.mem_cons.mp hx with h1 | h1
        · subst h1; exact absurd hpx hpa
        · exact h1
      · intro y hy hpy
        exact huniq y (List.mem_cons_of_mem a hy) hpy

/-- The pext path only reads the occupancy bits selected by the mask. -/
theorem pext_land_mask (occ mask : Nat) : pext (occ &&& mask) mask = pext occ mask := by
  unfold pext
  apply List.foldl_ext
  intro acc kp hkp
  obtain ⟨i, x⟩ := kp
  obtain ⟨hi, hx⟩ := List.mem_enum hkp
  have hxm : x ∈ serialize mask := hx ▸ List.getElem_mem hi
  have hmb : mask.testBit x = true := (mem_serialize.mp hxm).2
  simp only [Nat.testBit_land, hmb, Bool.and_true]

/-- All three index computations depend on the occupancy only through
occupancy & mask. -/
theorem magicIndexFn_land_mask (mask magic shiftAmt : Nat) (p1 p2 : Bool)
    (occ : Nat) :
    magicIndexFn mask magic shiftAmt p1 p2 (occ &&& mask) =
      magicIndexFn mask magic shiftAmt p1 p2 occ := by
  unfold magicIndexFn
  cases p1 with
  | true => simp [pext_land_mask]
  | false =>
    cases p2 with
    | true =>
      simp only [Bool.false_eq_true, if_false, if_true]
      have : (occ &&& mask) &&& mask = occ &&& mask := by
        apply Nat.eq_of_testBit_eq
        intro i
        simp [Nat.testBit_land, Bool.and_assoc]
      rw [this]
    | false =>
      simp only [Bool.false_eq_true, if_false]
      have h1 : ((occ &&& mask) % 2 ^ 32) &&& (mask % 2 ^ 32) =
          (occ % 2 ^ 32) &&& (mask % 2 ^ 32) := by
        apply Nat.eq_of_testBit_eq
        intro i
        simp only [Nat.testBit_land, Nat.testBit_mod_two_pow]
        cases hib : decide (i < 32) <;> simp [Nat.testBit_land, Bool.and_assoc]
      have h2 : (((occ &&& mask) >>> 32) % 2 ^ 32) &&& ((mask >>> 32) % 2 ^ 32) =
          ((occ >>> 32) % 2 ^ 32) &&& ((mask >>> 32) % 2 ^ 32) := by
        apply Nat.eq_of_testBit_eq
        intro i
        simp only [Nat.testBit_land, Nat.testBit_mod_two_pow, Nat.testBit_shiftRight]
        cases hib : decide (i < 32) <;> simp [Nat.testBit_land, Bool.and_assoc]
      rw [h1, h2]

/-- Under the injectivity contract, a table built with an index function
returns the reference attack set of the masked occupancy. -/
theorem buildAttacks_lookup (idx : Nat → Nat) (mask : Nat) (hmask : mask < U64)
    (ref : Bitboard → Bitboard) (occ : Nat) (hinj : InjOnSubsets idx mask) :
    buildAttacks idx mask ref (idx (occ &&& mask)) = ref (occ &&& mask) := by
  unfold buildAttacks
  have hmem : (occ &&& mask) ∈ subsetsOfMask mask := by
    apply mem_subsetsOfMask _ _ hmask
    apply Nat.eq_of_testBit_eq
    intro i
    simp [Nat.testBit_land, Bool.and_assoc]
  rw [find_eq_of_unique (subsetsOfMask mask) _ (occ &&& mask) hmem (by simp)]
  intro y hy hpy
  simp only [decide_eq_true_eq] at hpy
  exact hinj y hy (occ &&& mask) hmem hpy

/-- C8: for a Magic entry whose mask, magic constant and shift satisfy the
construction-time injectivity contract, the three index computations of
Magic::index (pext, 64-bit multiply-shift, 32-bit split multiply) all make
attacks_bb return the reference attack set of the masked occupancy, so any
two path choices p and q produce identical lookups for every occupancy. -/
theorem magic_paths_agree (mask magic shiftAmt : Nat) (hmask : mask < U64)
    (ref : Bitboard → Bitboard) (occ : Nat) (p q : Bool × Bool)
    (hp : InjOnSubsets (magicIndexFn mask magic shiftAmt p.1 p.2) mask)
    (hq : InjOnSubsets (magicIndexFn mask magic shiftAmt q.1 q.2) mask) :
    attacks_bb_sliding
      ⟨mask, magic,
        buildAttacks (magicIndexFn mask magic shiftAmt p.1 p.2) mask ref, shiftAmt⟩
      p.1 p.2 occ =
    attacks_bb_sliding
      ⟨mask, magic,
        buildAttacks (magicIndexFn mask magic shiftAmt q.1 q.2) mask ref, shiftAmt⟩
      q.1 q.2 occ := by
  unfold attacks_bb_sliding Magic.index
  simp only []
  rw [← magicIndexFn_land_mask mask magic shiftAmt p.1 p.2 occ,
      ← magicIndexFn_land_mask mask magic shiftAmt q.1 q.2 occ,
      buildAttacks_lookup _ _ hmask _ _ hp,
      buildAttacks_lookup _ _ hmask _ _ hq]

/-- Witness for C8: mask 3, magic 2^30, shift 30 make all three index paths
injective on the four occupancy subsets, and the pext, 64-bit and 32-bit
lookups agree on occupancy 5. -/
theorem magic_paths_agree_w :
    (3 : Nat) < U64 ∧
    InjOnSubsets (magicIndexFn 3 (2 ^ 30) 30 true true) 3 ∧
    InjOnSubsets (magicIndexFn 3 (2 ^ 30) 30 false true) 3 ∧
    InjOnSubsets (magicIndexFn 3 (2 ^ 30) 30 false false) 3 ∧
    (attacks_bb_sliding
      ⟨3, 2 ^ 30, buildAttacks (magicIndexFn 3 (2 ^ 30) 30 true true) 3 refC8, 30⟩
      true true 5 =
     attacks_bb_sliding
      ⟨3, 2 ^ 30, buildAttacks (magicIndexFn 3 (2 ^ 30) 30 false true) 3 refC8, 30⟩
      false true 5) ∧
    (attacks_bb_sliding
      ⟨3, 2 ^ 30, buildAttacks (magicIndexFn 3 (2 ^ 30) 30 false true) 3 refC8, 30⟩
      false true 5 =
     attacks_bb_sliding
      ⟨3, 2 ^ 30, buildAttacks (magicIndexFn 3 (2 ^ 30) 30 false false) 3 refC8, 30⟩
      false false 5) :=
  ⟨by norm_num [U64], by decide, by decide, by decide,
   magic_paths_agree 3 (2 ^ 30) 30 (by norm_num [U64]) refC8 5 (true, true)
     (false, true) (by decide) (by decide),
   magic_paths_agree 3 (2 ^ 30) 30 (by norm_num [U64]) refC8 5 (false, true)
     (false, false) (by decide) (by decide)⟩

/-- A conjunction-free reading of bitwise-and emptiness. -/
theorem land_eq_zero_iff {a b : Nat} :
    a &&& b = 0 ↔ ∀ i, (a.testBit i && b.testBit i) = false := by
  constructor
  · intro h i
    have := congrArg (fun x => Nat.testBit x i) h
    simpa [Nat.testBit_land, Nat.zero_testBit] using this
  · intro h
    apply Nat.eq_of_testBit_eq
    intro i
    rw [Nat.testBit_land, Nat.zero_testBit]
    exact h i

/-- Bits at or above 64 of a 64-bit value are clear. -/
theorem testBit_ge_64 {b : Nat} (hb : b < U64) {i : Nat} (hi : 64 ≤ i) :
    b.testBit i = false := by
  apply Nat.testBit_lt_two_pow
  calc b < U64 := hb
    _ ≤ 2 ^ i := by
        unfold U64
        exact Nat.pow_le_pow_right (by norm_num) hi

/-- The bits of the file-A mask. -/
theorem fbb0_testBit (i : Nat) :
    (fbb 0).testBit i = (decide (i < 64) && decide (i % 8 = 0)) := by
  by_cases hi : i < 64
  · revert hi
    revert i
    decide
  · push_neg at hi
    rw [testBit_ge_64 (by decide) hi]
    simp [Nat.not_lt.mpr hi]

/-- The bits of the file-H mask. -/
theorem fbb7_testBit (i : Nat) :
    (fbb 7).testBit i = (decide (i < 64) && decide (i % 8 = 7)) := by
  by_cases hi : i < 64
  · revert hi
    revert i
    decide
  · push_neg at hi
    rw [testBit_ge_64 (by decide) hi]
    simp [Nat.not_lt.mpr hi]

/-- The bits of the 64-bit complement. -/
theorem bbNot_testBit (b : Nat) (i : Nat) :
    (bbNot b).testBit i = (decide (i < 64) && ! b.testBit i) := by
  unfold bbNot AllSquares U64
  rw [Nat.testBit_xor, Nat.testBit_two_pow_sub_one, Nat.testBit_mod_two_pow]
  by_cases hi : i < 64
  · simp [hi]
  · simp [hi]

/-- Bit-level characterisation of shift NORTH. -/
theorem shift_north_char (b : Bitboard) (_hb : b < U64) (j : Nat) :
    (shift NORTH b).testBit j = true ↔
      ∃ i, b.testBit i = true ∧ onBoardStep NORTH i = some j := by
  rw [show shift NORTH b = (b <<< 8) % 2 ^ 64 from rfl]
  rw [Nat.testBit_mod_two_pow, Nat.testBit_shiftLeft]
  unfold onBoardStep
  simp only [Direction.offset]
  constructor
  · intro h
    simp only [Bool.and_eq_true, decide_eq_true_eq] at h
    obtain ⟨hj64, hj8, hbit⟩ := h
    refine ⟨j - 8, hbit, ?_⟩
    rw [if_pos (by omega : j - 8 < 64), if_pos (by refine ⟨by omega, by omega, ?_⟩; omega)]
    congr 1
    omega
  · rintro ⟨i, hbit, hstep⟩
    split at hstep
    case isFalse => exact absurd hstep (by simp)
    case isTrue hi64 =>
      split at hstep
      case isFalse => exact absurd hstep (by simp)
      case isTrue hcond =>
        simp only [Option.some.injEq] at hstep
        have hj : j = i + 8 := by omega
        subst hj
        simp only [Bool.and_eq_true, decide_eq_true_eq]
        refine ⟨by omega, by omega, ?_⟩
        have h2 : i + 8 - 8 = i := by omega
        rw [h2]
        exact hbit

/-- Bit-level characterisation of shift EAST. -/
theorem shift_east_char (b : Bitboard) (_hb : b < U64) (j : Nat) :
    (shift EAST b).testBit j = true ↔
      ∃ i, b.testBit i = true ∧ onBoardStep EAST i = some j := by
  rw [show shift EAST b = ((b &&& bbNot (fbb 7)) <<< 1) % 2 ^ 64 from rfl]
  rw [Nat.testBit_mod_two_pow, Nat.testBit_shiftLeft]
  unfold onBoardStep
  simp only [Direction.offset, Nat.testBit_land, bbNot_testBit, fbb7_testBit]
  constructor
  · intro h
    simp only [Bool.and_eq_true, decide_eq_true_eq] at h
    obtain ⟨hj64, hj1, hbit, hj164, hmask⟩ := h
    rw [Bool.not_eq_true'] at hmask
    have hfile : (j - 1) % 8 ≠ 7 := by
      intro hf
      apply absurd hmask
      simp [hj164, hf]
    refine ⟨j - 1, hbit, ?_⟩
    rw [if_pos hj164, if_pos (by refine ⟨by omega, by omega, ?_⟩; omega)]
    congr 1
    omega
  · rintro ⟨i, hbit, hstep⟩
    split at hstep
    case isFalse => exact absurd hstep (by simp)
    case isTrue hi64 =>
      split at hstep
      case isFalse => exact absurd hstep (by simp)
      case isTrue hcond =>
        simp only [Option.some.injEq] at hstep
        obtain ⟨hc0, hc1, hc2⟩ := hcond
        have hfile : i % 8 ≠ 7 := by omega
        have hj : j = i + 1 := by omega
        subst hj
        simp only [Bool.and_eq_true, decide_eq_true_eq]
        have h2 : i + 1 - 1 = i := by omega
        rw [h2]
        refine ⟨by omega, by omega, hbit, by omega, ?_⟩
        simp [hfile]

/-- Bit-level characterisation of shift SOUTH. -/
theorem shift_south_char (b : Bitboard) (hb : b < U64) (j : Nat) :
    (shift SOUTH b).testBit j = true ↔
      ∃ i, b.testBit i = true ∧ onBoardStep SOUTH i = some j := by
  rw [show shift SOUTH b = b >>> 8 from rfl]
  rw [Nat.testBit_shiftRight]
  unfold onBoardStep
  simp only [Direction.offset]
  constructor
  · intro h
    have hi64 : 8 + j < 64 := by
      by_contra hge
      rw [testBit_ge_64 hb (by omega)] at h
      exact absurd h (by simp)
    refine ⟨8 + j, h, ?_⟩
    rw [if_pos hi64, if_pos (by refine ⟨by omega, by omega, ?_⟩; omega)]
    congr 1
    omega
  · rintro ⟨i, hbit, hstep⟩
    split at hstep
    case isFalse => exact absurd hstep (by simp)
    case isTrue hi64 =>
      split at hstep
      case isFalse => exact absurd hstep (by simp)
      case isTrue hcond =>
        simp only [Option.some.injEq] at hstep
        obtain ⟨hc0, hc1, hc2⟩ := hcond
        have hj : i = 8 + j := by omega
        subst hj
        exact hbit

/-- Bit-level characterisation of shift NORTH_EAST. -/
theorem shift_north_east_char (b : Bitboard) (_hb : b < U64) (j : Nat) :
    (shift NORTH_EAST b).testBit j = true ↔
      ∃ i, b.testBit i = true ∧ onBoardStep NORTH_EAST i = some j := by
  rw [show shift NORTH_EAST b = ((b &&& bbNot (fbb 7)) <<< 9) % 2 ^ 64 from rfl]
  rw [Nat.testBit_mod_two_pow, Nat.testBit_shiftLeft]
  unfold onBoardStep
  simp only [Direction.offset, Nat.testBit_land, bbNot_testBit, fbb7_testBit]
  constructor
  · intro h
    simp only [Bool.and_eq_true, decide_eq_true_eq] at h
    obtain ⟨hj64, hj9, hbit, hj964, hmask⟩ := h
    rw [Bool.not_eq_true'] at hmask
    have hfile : (j - 9) % 8 ≠ 7 := by
      intro hf
      apply absurd hmask
      simp [hj964, hf]
    refine ⟨j - 9, hbit, ?_⟩
    rw [if_pos hj964, if_pos (by refine ⟨by omega, by omega, ?_⟩; omega)]
    congr 1
    omega
  · rintro ⟨i, hbit, hstep⟩
    split at hstep
    case isFalse => exact absurd hstep (by simp)
    case isTrue hi64 =>
      split at hstep
      case isFalse => exact absurd hstep (by simp)
      case isTrue hcond =>
        simp only [Option.some.injEq] at hstep
        obtain ⟨hc0, hc1, hc2⟩ := hcond
        have hfile : i % 8 ≠ 7 := by omega
        have hj : j = i + 9 := by omega
        subst hj
        simp only [Bool.and_eq_true, decide_eq_true_eq]
        have h2 : i + 9 - 9 = i := by omega
        rw [h2]
        refine ⟨by omega, by omega, hbit, by omega, ?_⟩
        simp [hfile]

/-- Bit-level characterisation of shift NORTH_WEST. -/
theorem shift_north_west_char (b : Bitboard) (_hb : b < U64) (j : Nat) :
    (shift NORTH_WEST b).testBit j = true ↔
      ∃ i, b.testBit i = true ∧ onBoardStep NORTH_WEST i = some j := by
  rw [show shift NORTH_WEST b = ((b &&& bbNot (fbb 0)) <<< 7) % 2 ^ 64 from rfl]
  rw [Nat.testBit_mod_two_pow, Nat.testBit_shiftLeft]
  unfold onBoardStep
  simp only [Direction.offset, Nat.testBit_land, bbNot_testBit, fbb0_testBit]
  constructor
  · intro h
    simp only [Bool.and_eq_true, decide_eq_true_eq] at h
    obtain ⟨hj64, hj7, hbit, hj764, hmask⟩ := h
    rw [Bool.not_eq_true'] at hmask
    have hfile : (j - 7) % 8 ≠ 0 := by
      intro hf
      apply absurd hmask
      simp [hj764, hf]
    refine ⟨j - 7, hbit, ?_⟩
    rw [if_pos hj764, if_pos (by refine ⟨by omega, by omega, ?_⟩; omega)]
    congr 1
    omega
  · rintro ⟨i, hbit, hstep⟩
    split at hstep
    case isFalse => exact absurd hstep (by simp)
    case isTrue hi64 =>
      split at hstep
      case isFalse => exact absurd hstep (by simp)
      case isTrue hcond =>
        simp only [Option.some.injEq] at hstep
        obtain ⟨hc0, hc1, hc2⟩ := hcond
        have hfile : i % 8 ≠ 0 := by omega
        have hj : j = i + 7 := by omega
        subst hj
        simp only [Bool.and_eq_true, decide_eq_true_eq]
        have h2 : i + 7 - 7 = i := by omega
        rw [h2]
        refine ⟨by omega, by omega, hbit, by omega, ?_⟩
        simp [hfile]

/-- Bit-level characterisation of shift WEST. -/
theorem shift_west_char (b : Bitboard) (_hb : b < U64) (j : Nat) :
    (shift WEST b).testBit j = true ↔
      ∃ i, b.testBit i = true ∧ onBoardStep WEST i = some j := by
  rw [show shift WEST b = (b &&& bbNot (fbb 0)) >>> 1 from rfl]
  rw [Nat.testBit_shiftRight]
  unfold onBoardStep
  simp only [Direction.offset, Nat.testBit_land, bbNot_testBit, fbb0_testBit]
  constructor
  · intro h
    simp only [Bool.and_eq_true, decide_eq_true_eq] at h
    obtain ⟨hbit, hj164, hmask⟩ := h
    rw [Bool.not_eq_true'] at hmask
    have hfile : (1 + j) % 8 ≠ 0 := by
      intro hf
      apply absurd hmask
      simp [hj164, hf]
    refine ⟨1 + j, hbit, ?_⟩
    rw [if_pos hj164, if_pos (by refine ⟨by omega, by omega, ?_⟩; omega)]
    congr 1
    omega
  · rintro ⟨i, hbit, hstep⟩
    split at hstep
    case isFalse => exact absurd hstep (by simp)
    case isTrue hi64 =>
      split at hstep
      case isFalse => exact absurd hstep (by simp)
      case isTrue hcond =>
        simp only [Option.some.injEq] at hstep
        obtain ⟨hc0, hc1, hc2⟩ := hcond
        have hfile : i % 8 ≠ 0 := by omega
        have hj : i = 1 + j := by omega
        subst hj
        simp only [Bool.and_eq_true, decide_eq_true_eq]
        refine ⟨hbit, by omega, ?_⟩
        simp [hfile]

/-- Bit-level characterisation of shift SOUTH_EAST. -/
theorem shift_south_east_char (b : Bitboard) (_hb : b < U64) (j : Nat) :
    (shift SOUTH_EAST b).testBit j = true ↔
      ∃ i, b.testBit i = true ∧ onBoardStep SOUTH_EAST i = some j := by
  rw [show shift SOUTH_EAST b = (b &&& bbNot (fbb 7)) >>> 7 from rfl]
  rw [Nat.testBit_shiftRight]
  unfold onBoardStep
  simp only [Direction.offset, Nat.testBit_land, bbNot_testBit, fbb7_testBit]
  constructor
  · intro h
    simp only [Bool.and_eq_true, decide_eq_true_eq] at h
    obtain ⟨hbit, hj764, hmask⟩ := h
    rw [Bool.not_eq_true'] at hmask
    have hfile : (7 + j) % 8 ≠ 7 := by
      intro hf
      apply absurd hmask
      simp [hj764, hf]
    refine ⟨7 + j, hbit, ?_⟩
    rw [if_pos hj764, if_pos (by refine ⟨by omega, by omega, ?_⟩; omega)]
    congr 1
    omega
  · rintro ⟨i, hbit, hstep⟩
    split at hstep
    case isFalse => exact absurd hstep (by simp)
    case isTrue hi64 =>
      split at hstep
      case isFalse => exact absurd hstep (by simp)
      case isTrue hcond =>
        simp only [Option.some.injEq] at hstep
        obtain ⟨hc0, hc1, hc2⟩ := hcond
        have hfile : i % 8 ≠ 7 := by omega
        have hj : i = 7 + j := by omega
        subst hj
        simp only [Bool.and_eq_true, decide_eq_true_eq]
        refine ⟨hbit, by omega, ?_⟩
        simp [hfile]

/-- Bit-level characterisation of shift SOUTH_WEST. -/
theorem shift_south_west_char (b : Bitboard) (_hb : b < U64) (j : Nat) :
    (shift SOUTH_WEST b).testBit j = true ↔
      ∃ i, b.testBit i = true ∧ onBoardStep SOUTH_WEST i = some j := by
  rw [show shift SOUTH_WEST b = (b &&& bbNot (fbb 0)) >>> 9 from rfl]
  rw [Nat.testBit_shiftRight]
  unfold onBoardStep
  simp only [Direction.offset, Nat.testBit_land, bbNot_testBit, fbb0_testBit]
  constructor
  · intro h
    simp only [Bool.and_eq_true, decide_eq_true_eq] at h
    obtain ⟨hbit, hj964, hmask⟩ := h
    rw [Bool.not_eq_true'] at hmask
    have hfile : (9 + j) % 8 ≠ 0 := by
      intro hf
      apply absurd hmask
      simp [hj964, hf]
    refine ⟨9 + j, hbit, ?_⟩
    rw [if_pos hj964, if_pos (by refine ⟨by omega, by omega, ?_⟩; omega)]
    congr 1
    omega
  · rintro ⟨i, hbit, hstep⟩
    split at hstep
    case isFalse => exact absurd hstep (by simp)
    case isTrue hi64 =>
      split at hstep
      case isFalse => exact absurd hstep (by simp)
      case isTrue hcond =>
        simp only [Option.some.injEq] at hstep
        obtain ⟨hc0, hc1, hc2⟩ := hcond
        have hfile : i % 8 ≠ 0 := by omega
        have hj : i = 9 + j := by omega
        subst hj
        simp only [Bool.and_eq_true, decide_eq_true_eq]
        refine ⟨hbit, by omega, ?_⟩
        simp [hfile]

/-- What a successful on-board step means arithmetically. -/
theorem onBoardStep_facts (D : Direction) (i j : Nat) (h : onBoardStep D i = some j) :
    i < 64 ∧ j < 64 ∧ (j : Int) = (i : Int) + D.offset ∧
      ((j : Int) % 8 - (i : Int) % 8).natAbs ≤ 1 := by
  unfold onBoardStep at h
  split at h
  case isFalse => exact absurd h (by simp)
  case isTrue hi =>
    split at h
    case isFalse => exact absurd h (by simp)
    case isTrue hc =>
      simp only [Option.some.injEq] at h
      obtain ⟨h0, h1, h2⟩ := hc
      have hj : (j : Int) = (i : Int) + D.offset := by omega
      refine ⟨hi, by omega, hj, ?_⟩
      rw [hj]
      exact h2

/-- C10: shift never wraps around a board edge: shifting east-ward leaves
file A empty, shifting west-ward leaves file H empty, and every set bit of
the result is exactly the one-step on-board translation of a set bit of the
input. -/
theorem shift_no_wrap (D : Direction) (b : Bitboard) (hb : b < U64) :
    ((D = EAST ∨ D = NORTH_EAST ∨ D = SOUTH_EAST) → shift D b &&& fbb 0 = 0) ∧
    ((D = WEST ∨ D = NORTH_WEST ∨ D = SOUTH_WEST) → shift D b &&& fbb 7 = 0) ∧
    (∀ j, (shift D b).testBit j = true ↔
      ∃ i, b.testBit i = true ∧ onBoardStep D i = some j) := by
  have hchar : ∀ j, (shift D b).testBit j = true ↔
      ∃ i, b.testBit i = true ∧ onBoardStep D i = some j := by
    cases D with
    | NORTH => exact shift_north_char b hb
    | SOUTH => exact shift_south_char b hb
    | EAST => exact shift_east_char b hb
    | WEST => exact shift_west_char b hb
    | NORTH_EAST => exact shift_north_east_char b hb
    | NORTH_WEST => exact shift_north_west_char b hb
    | SOUTH_EAST => exact shift_south_east_char b hb
    | SOUTH_WEST => exact shift_south_west_char b hb
  refine ⟨?_, ?_, hchar⟩
  · intro hD
    rw [land_eq_zero_iff]
    intro i
    by_cases hbit : (shift D b).testBit i = true
    · obtain ⟨src, _, hstep⟩ := (hchar i).mp hbit
      obtain ⟨hs64, hi64, hrel, hmod⟩ := onBoardStep_facts D src i hstep
      have hoff : D.offset = 1 ∨ D.offset = 9 ∨ D.offset = -7 := by
        rcases hD with rfl | rfl | rfl <;> simp [Direction.offset]
      have hfile : i % 8 ≠ 0 := by
        rcases hoff with h | h | h <;> rw [h] at hrel <;> omega
      rw [fbb0_testBit]
      simp [hfile]
    · rw [Bool.not_eq_true] at hbit
      simp [hbit]
  · intro hD
    rw [land_eq_zero_iff]
    intro i
    by_cases hbit : (shift D b).testBit i = true
    · obtain ⟨src, _, hstep⟩ := (hchar i).mp hbit
      obtain ⟨hs64, hi64, hrel, hmod⟩ := onBoardStep_facts D src i hstep
      have hoff : D.offset = -1 ∨ D.offset = 7 ∨ D.offset = -9 := by
        rcases hD with rfl | rfl | rfl <;> simp [Direction.offset]
      have hfile : i % 8 ≠ 7 := by
        rcases hoff with h | h | h <;> rw [h] at hrel <;> omega
      rw [fbb7_testBit]
      simp [hfile]
    · rw [Bool.not_eq_true] at hbit
      simp [hbit]

/-- Witness for C10: shifting the h1 square north-east wraps nowhere (the
result has no file-A bit), and the characterisation applies to the a1
square stepping to b2. -/
theorem shift_no_wrap_w :
    (2 ^ 7 : Nat) < U64 ∧
    shift NORTH_EAST (2 ^ 7) &&& fbb 0 = 0 ∧
    ((shift NORTH_EAST (2 ^ 0)).testBit 9 = true ↔
      ∃ i, (2 ^ 0 : Nat).testBit i = true ∧ onBoardStep NORTH_EAST i = some 9) :=
  ⟨by norm_num [U64],
   (shift_no_wrap NORTH_EAST (2 ^ 7) (by norm_num [U64])).1 (Or.inr (Or.inl rfl)),
   (shift_no_wrap NORTH_EAST (2 ^ 0) (by norm_num [U64])).2.2 9⟩

/-- The insertion loop preserves the segment length. -/
theorem insLoop_length (tmp : ExtMove) :
    ∀ (q : Nat) (l : List ExtMove), (insLoop l q tmp).length = l.length := by
  intro q
  induction q with
  | zero => intro l; simp [insLoop]
  | succ n ih =>
    intro l
    rw [insLoop]
    split
    · rw [ih]
      simp
    · simp

/-- Reading an index other than the updated one. -/
theorem getD_set_ne (l : List ExtMove) (i j : Nat) (a : ExtMove) (h : i ≠ j) :
    (l.set i a).getD j em0 = l.getD j em0 := by
  rw [List.getD_eq_getElem?_getD, List.getD_eq_getElem?_getD, List.getElem?_set_ne h]

/-- Decomposition of the insertion loop: tmp lands at the first index j from
the right whose predecessor is not smaller, the slots j..q-1 shift up one,
and everything past q is untouched. -/
theorem insLoop_decomp (tmp : ExtMove) :
    ∀ (q : Nat) (l : List ExtMove), q < l.length →
    ∃ j, j ≤ q ∧
      insLoop l q tmp =
        l.take j ++ tmp :: ((l.drop j).take (q - j) ++ l.drop (q + 1)) ∧
      (∀ i, j ≤ i → i < q → (l.getD i em0).value < tmp.value) ∧
      (j = 0 ∨ ¬ (l.getD (j - 1) em0).value < tmp.value) := by
  intro q
  induction q with
  | zero =>
    intro l hq
    refine ⟨0, le_refl 0, ?_, by omega, Or.inl rfl⟩
    rw [insLoop, List.set_eq_take_append_cons_drop, if_pos hq]
    simp
  | succ n ih =>
    intro l hq
    rw [insLoop]
    split
    case isTrue hcond =>
      have hlen : n < (l.set (n + 1) (l.getD n em0)).length := by
        rw [List.length_set]; omega
      obtain ⟨j, hj, hdec, hlt, hbound⟩ := ih (l.set (n + 1) (l.getD n em0)) hlen
      refine ⟨j, by omega, ?_, ?_, ?_⟩
      · rw [hdec]
        -- rewrite the set-list pieces back to pieces of l
        have hset : l.set (n + 1) (l.getD n em0) =
            l.take (n + 1) ++ l.getD n em0 :: l.drop (n + 2) := by
          rw [List.set_eq_take_append_cons_drop, if_pos hq]
        have hlen1 : (List.take (n + 1) l).length = n + 1 := by
          rw [List.length_take]; omega
        have htake : (l.set (n + 1) (l.getD n em0)).take j = l.take j := by
          rw [hset, List.take_append_of_le_length (by omega),
            List.take_take, min_eq_left (by omega : j ≤ n + 1)]
        have hdrop : (l.set (n + 1) (l.getD n em0)).drop j =
            (l.take (n + 1)).drop j ++ l.getD n em0 :: l.drop (n + 2) := by
          rw [hset, List.drop_append_of_le_length (by omega)]
        have hseg : ((l.set (n + 1) (l.getD n em0)).drop j).take (n - j) =
            (l.drop j).take (n - j) := by
          rw [hdrop, List.take_append_of_le_length
                (by rw [List.length_drop, hlen1]; omega),
            List.drop_take, List.take_take, min_eq_left (by omega : n - j ≤ n + 1 - j)]
        have hdropn : (l.set (n + 1) (l.getD n em0)).drop (n + 1) =
            l.getD n em0 :: l.drop (n + 2) := by
          rw [hset, List.drop_append_of_le_length (by omega)]
          rw [show (List.take (n+1) l).drop (n+1) = [] from by
            simp [List.drop_eq_nil_iff, hlen1]]
          rfl
        rw [htake, hseg, hdropn]
        -- now merge the dangling l.getD n element into the take
        have hmerge : (l.drop j).take (n - j) ++ l.getD n em0 :: l.drop (n + 2) =
            (l.drop j).take (n + 1 - j) ++ l.drop (n + 2) := by
          have h1 : n + 1 - j = (n - j) + 1 := by omega
          rw [h1, List.take_succ]
          have h2 : (l.drop j)[n - j]? = some (l.getD n em0) := by
            rw [List.getElem?_drop]
            have h3 : j + (n - j) = n := by omega
            rw [h3, List.getElem?_eq_getElem (by omega)]
            rw [List.getD_eq_getElem l em0 (by omega)]
          rw [h2]
          simp
        rw [hmerge]
      · intro i hji hi
        by_cases hin : i < n
        · have := hlt i hji hin
          rw [getD_set_ne _ _ _ _ (by omega)] at this
          exact this
        · have hni : i = n := by omega
          subst hni
          exact hcond
      · rcases hbound with h0 | hbd
        · exact Or.inl h0
        · right
          rw [getD_set_ne _ _ _ _ (by omega)] at hbd
          exact hbd
    case isFalse hcond =>
      refine ⟨n + 1, le_refl _, ?_, by omega, Or.inr (by simpa using hcond)⟩
      rw [List.set_eq_take_append_cons_drop, if_pos hq]
      have : (l.drop (n + 1)).take (n + 1 - (n + 1)) = [] := by simp
      rw [this]
      simp

/-- The insertion loop permutes tmp with the surrounding slots. -/
theorem insLoop_perm (tmp : ExtMove) (q : Nat) (l : List ExtMove) (hq : q < l.length) :
    (insLoop l q tmp).Perm (tmp :: (l.take q ++ l.drop (q + 1))) := by
  obtain ⟨j, hj, hdec, _, _⟩ := insLoop_decomp tmp q l hq
  rw [hdec]
  have heq : l.take j ++ (l.drop j).take (q - j) = l.take q := by
    rw [← List.take_add]
    congr 1
    omega
  refine List.Perm.trans List.perm_middle ?_
  rw [← List.append_assoc, heq]

/-- The insertion loop never writes past index q. -/
theorem insLoop_drop (tmp : ExtMove) (q : Nat) (l : List ExtMove) (hq : q < l.length) :
    (insLoop l q tmp).drop (q + 1) = l.drop (q + 1) := by
  obtain ⟨j, hj, hdec, _, _⟩ := insLoop_decomp tmp q l hq
  rw [hdec]
  have hassoc : l.take j ++ tmp :: ((l.drop j).take (q - j) ++ l.drop (q + 1)) =
      (l.take j ++ tmp :: (l.drop j).take (q - j)) ++ l.drop (q + 1) := by
    simp
  rw [hassoc]
  apply List.drop_left'
  rw [List.length_append, List.length_cons, List.length_take, List.length_take,
    List.length_drop, min_eq_left (by omega : j ≤ l.length),
    min_eq_left (by omega : q - j ≤ l.length - j)]
  omega

/-- Reading inside a take. -/
theorem getD_take (l : List ExtMove) (m i : Nat) (hi : i < m) :
    (l.take m).getD i em0 = l.getD i em0 := by
  rw [List.getD_eq_getElem?_getD, List.getD_eq_getElem?_getD, List.getElem?_take,
    if_pos hi]

/-- Sortedness read through getD. -/
theorem sortedDesc_getD (l : List ExtMove) (hs : SortedDescVal l) (i j : Nat)
    (hij : i < j) (hj : j < l.length) :
    (l.getD j em0).value ≤ (l.getD i em0).value := by
  rw [List.getD_eq_getElem l em0 hj, List.getD_eq_getElem l em0 (by omega)]
  exact List.pairwise_iff_getElem.mp hs i j (by omega) hj hij

/-- If the region below q is sorted, inserting tmp at q keeps the region
including q sorted. -/
theorem insLoop_sorted (tmp : ExtMove) (q : Nat) (l : List ExtMove)
    (hq : q < l.length) (hsor : SortedDescVal (l.take q)) :
    SortedDescVal ((insLoop l q tmp).take (q + 1)) := by
  obtain ⟨j, hj, hdec, hlt, hbound⟩ := insLoop_decomp tmp q l hq
  rw [hdec]
  have hassoc : l.take j ++ tmp :: ((l.drop j).take (q - j) ++ l.drop (q + 1)) =
      (l.take j ++ tmp :: (l.drop j).take (q - j)) ++ l.drop (q + 1) := by
    simp
  rw [hassoc, List.take_left' (by
    rw [List.length_append, List.length_cons, List.length_take, List.length_take,
      List.length_drop, min_eq_left (by omega : j ≤ l.length),
      min_eq_left (by omega : q - j ≤ l.length - j)]
    omega)]
  unfold SortedDescVal List.Sorted at hsor ⊢
  rw [List.pairwise_append]
  have hqlen : (l.take q).length = q := by rw [List.length_take]; omega
  have hmem_take : ∀ a ∈ l.take j, ∃ i, i < j ∧ i < l.length ∧ a = l.getD i em0 := by
    intro a ha
    obtain ⟨i, hi, rfl⟩ := List.mem_iff_getElem.mp ha
    rw [List.length_take] at hi
    refine ⟨i, by omega, by omega, ?_⟩
    rw [List.getElem_take, List.getD_eq_getElem l em0 (by omega)]
  have hmem_seg : ∀ b ∈ (l.drop j).take (q - j),
      ∃ i, j ≤ i ∧ i < q ∧ b = l.getD i em0 := by
    intro b hb
    obtain ⟨i, hi, rfl⟩ := List.mem_iff_getElem.mp hb
    rw [List.length_take, List.length_drop] at hi
    refine ⟨j + i, by omega, by omega, ?_⟩
    rw [List.getElem_take, List.getElem_drop, List.getD_eq_getElem l em0 (by omega)]
  have hsor_idx : ∀ i1 i2, i1 < i2 → i2 < q →
      (l.getD i2 em0).value ≤ (l.getD i1 em0).value := by
    intro i1 i2 h12 h2q
    have h1 := sortedDesc_getD (l.take q) hsor i1 i2 h12 (by rw [hqlen]; omega)
    rw [getD_take _ _ _ (by omega), getD_take _ _ _ (by omega)] at h1
    exact h1
  refine ⟨?_, ?_, ?_⟩
  · -- the untouched sorted prefix
    have : l.take j = (l.take q).take j := by
      rw [List.take_take, min_eq_left hj]
    rw [this]
    exact hsor.sublist (List.take_sublist _ _)
  · -- tmp followed by the shifted smaller entries
    rw [List.pairwise_cons]
    constructor
    · intro b hb
      obtain ⟨i, hji, hiq, rfl⟩ := hmem_seg b hb
      exact le_of_lt (hlt i hji hiq)
    · have : (l.drop j).take (q - j) = (l.take q).drop j := by
        rw [List.drop_take]
      rw [this]
      exact hsor.sublist (List.drop_sublist _ _)
  · -- everything in the prefix dominates tmp and the shifted entries
    intro a ha b hb
    obtain ⟨i1, hi1j, hi1l, rfl⟩ := hmem_take a ha
    have hjpos : 0 < j := by omega
    have htmp_le : tmp.value ≤ (l.getD i1 em0).value := by
      rcases hbound with h0 | hbd
      · omega
      · push_neg at hbd
        by_cases hij : i1 = j - 1
        · subst hij; exact hbd
        · exact le_trans hbd (hsor_idx i1 (j - 1) (by omega) (by omega))
    rcases List.mem_cons.mp hb with rfl | hbseg
    · exact htmp_le
    · obtain ⟨i2, hji2, hi2q, rfl⟩ := hmem_seg b hbseg
      exact le_trans (le_of_lt (hlt i2 hji2 hi2q)) htmp_le

/-- Lists agreeing from index n on agree at any i at or beyond n. -/
theorem getD_eq_of_drop_eq (l1 l2 : List ExtMove) (n i : Nat)
    (h : l1.drop n = l2.drop n) (hi : n ≤ i) : l1.getD i em0 = l2.getD i em0 := by
  rw [List.getD_eq_getElem?_getD, List.getD_eq_getElem?_getD]
  have h1 : l1[i]? = (l1.drop n)[i - n]? := by
    rw [List.getElem?_drop]; congr 1; omega
  have h2 : l2[i]? = (l2.drop n)[i - n]? := by
    rw [List.getElem?_drop]; congr 1; omega
  rw [h1, h2, h]

/-- Writing back the value already present changes nothing. -/
theorem set_getD_self (l : List ExtMove) (p : Nat) (hp : p < l.length) :
    l.set p (l.getD p em0) = l := by
  rw [List.getD_eq_getElem l em0 hp, List.set_eq_take_append_cons_drop, if_pos hp,
    ← List.drop_eq_getElem_cons hp, List.take_append_drop]

/-- One outer step of partial_insertion_sort (stash the slot above the
sorted region at the scan position, then insert the scanned entry) permutes
the list. -/
theorem pis_step_perm (l : List ExtMove) (se p : Nat) (hse : se < p)
    (hp : p < l.length) :
    (insLoop (l.set p (l.getD (se + 1) em0)) (se + 1) (l.getD p em0)).Perm l := by
  have hlen1 : (l.set p (l.getD (se + 1) em0)).length = l.length := List.length_set ..
  have h1 := insLoop_perm (l.getD p em0) (se + 1) (l.set p (l.getD (se + 1) em0))
    (by omega)
  have h22 : se + 1 + 1 = se + 2 := by omega
  rw [h22] at h1
  refine h1.trans ?_
  by_cases hpe : p = se + 1
  · subst hpe
    rw [set_getD_self l (se + 1) hp]
    rw [List.getD_eq_getElem l em0 hp]
    refine List.Perm.trans List.perm_middle.symm ?_
    rw [← List.drop_eq_getElem_cons hp, List.take_append_drop]
  · have hgt : se + 1 < p := by omega
    rw [← Multiset.coe_eq_coe]
    have hset : l.set p (l.getD (se + 1) em0) =
        l.take p ++ l.getD (se + 1) em0 :: l.drop (p + 1) := by
      rw [List.set_eq_take_append_cons_drop, if_pos hp]
    have hplen : (l.take p).length = p := by rw [List.length_take]; omega
    have htk : (l.set p (l.getD (se + 1) em0)).take (se + 1) = l.take (se + 1) := by
      rw [hset, List.take_append_of_le_length (by omega), List.take_take,
        min_eq_left (by omega : se + 1 ≤ p)]
    have hdr : (l.set p (l.getD (se + 1) em0)).drop (se + 2) =
        (l.take p).drop (se + 2) ++ l.getD (se + 1) em0 :: l.drop (p + 1) := by
      rw [hset, List.drop_append_of_le_length (by omega)]
    rw [htk, hdr]
    have hl : l = l.take p ++ l.getD p em0 :: l.drop (p + 1) := by
      rw [List.getD_eq_getElem l em0 hp, ← List.drop_eq_getElem_cons hp,
        List.take_append_drop]
    have htp : l.take p = l.take (se + 1) ++ l.getD (se + 1) em0 ::
        (l.take p).drop (se + 2) := by
      have h2 : (l.take p).take (se + 1) = l.take (se + 1) := by
        rw [List.take_take, min_eq_left (by omega : se + 1 ≤ p)]
      have h3 : (l.take p).drop (se + 1) =
          l.getD (se + 1) em0 :: (l.take p).drop (se + 2) := by
        rw [List.drop_eq_getElem_cons (by omega : se + 1 < (l.take p).length)]
        congr 1
        · rw [List.getElem_take, List.getD_eq_getElem l em0 (by omega)]
      rw [← h2]
      conv_lhs => rw [← List.take_append_drop (se + 1) (l.take p)]
      rw [h3]
    conv_rhs => rw [hl]
    conv_rhs => rw [htp]
    simp only [← Multiset.cons_coe, ← Multiset.coe_add, ← Multiset.singleton_add]
    abel

/-- Reading the updated index. -/
theorem getD_set_self (l : List ExtMove) (p : Nat) (x : ExtMove) (hp : p < l.length) :
    (l.set p x).getD p em0 = x := by
  rw [List.getD_eq_getElem _ em0 (by rw [List.length_set]; exact hp)]
  exact List.getElem_set_self _

/-- Invariant of the outer partial_insertion_sort loop: the result is a
permutation, some region boundary se2 has a sorted prefix, and everything
past it scores below the limit. -/
theorem pisLoop_spec (limit : Int) :
    ∀ (fuel : Nat) (l : List ExtMove) (se p : Nat),
    l.length ≤ p + fuel → se < p →
    SortedDescVal (l.take (se + 1)) →
    (∀ i, se < i → i < p → (l.getD i em0).value < limit) →
    ∃ se2, (pisLoop limit fuel l se p).Perm l ∧
      SortedDescVal ((pisLoop limit fuel l se p).take (se2 + 1)) ∧
      (∀ i, se2 < i → i < l.length →
        ((pisLoop limit fuel l se p).getD i em0).value < limit) := by
  intro fuel
  induction fuel with
  | zero =>
    intro l se p hfuel hse hsor htail
    exact ⟨se, List.Perm.refl _, hsor, fun i h1 h2 => htail i h1 (by omega)⟩
  | succ n ih =>
    intro l se p hfuel hse hsor htail
    rw [pisLoop]
    split
    case isFalse hp =>
      exact ⟨se, List.Perm.refl _, hsor, fun i h1 h2 => htail i h1 (by omega)⟩
    case isTrue hp =>
      split
      case isTrue hval =>
        simp only []
        have h22 : se + 1 + 1 = se + 2 := by omega
        have hlen1 : (l.set p (l.getD (se + 1) em0)).length = l.length :=
          List.length_set ..
        have hq : se + 1 < (l.set p (l.getD (se + 1) em0)).length := by omega
        have htk : (l.set p (l.getD (se + 1) em0)).take (se + 1) = l.take (se + 1) := by
          have hset : l.set p (l.getD (se + 1) em0) =
              l.take p ++ l.getD (se + 1) em0 :: l.drop (p + 1) := by
            rw [List.set_eq_take_append_cons_drop, if_pos hp]
          rw [hset, List.take_append_of_le_length
              (by rw [List.length_take]; omega),
            List.take_take, min_eq_left (by omega : se + 1 ≤ p)]
        have hperm' := pis_step_perm l se p hse hp
        have hsort' := insLoop_sorted (l.getD p em0) (se + 1)
          (l.set p (l.getD (se + 1) em0)) hq (by rw [htk]; exact hsor)
        rw [h22] at hsort'
        have hdrop' := insLoop_drop (l.getD p em0) (se + 1)
          (l.set p (l.getD (se + 1) em0)) hq
        rw [h22] at hdrop'
        have hlen' : (insLoop (l.set p (l.getD (se + 1) em0)) (se + 1)
            (l.getD p em0)).length = l.length := by
          rw [insLoop_length, hlen1]
        have htail' : ∀ i, se + 1 < i → i < p + 1 →
            ((insLoop (l.set p (l.getD (se + 1) em0)) (se + 1)
              (l.getD p em0)).getD i em0).value < limit := by
          intro i h1 h2
          rw [getD_eq_of_drop_eq _ _ (se + 2) i hdrop' (by omega)]
          by_cases hip : i = p
          · subst hip
            rw [getD_set_self l i _ hp]
            exact htail (se + 1) (by omega) (by omega)
          · rw [getD_set_ne _ _ _ _ (by omega)]
            exact htail i (by omega) (by omega)
        obtain ⟨se2, hP, hS, hT⟩ := ih
          (insLoop (l.set p (l.getD (se + 1) em0)) (se + 1) (l.getD p em0))
          (se + 1) (p + 1) (by omega) (by omega) hsort' htail'
        refine ⟨se2, hP.trans hperm', hS, ?_⟩
        intro i h1 h2
        exact hT i h1 (by omega)
      case isFalse hval =>
        apply ih l se (p + 1) (by omega) (by omega) hsor
        intro i h1 h2
        by_cases hip : i = p
        · subst hip
          omega
        · exact htail i h1 (by omega)

/-- C9: partial_insertion_sort permutes its segment, and afterwards the
entries scoring at or above the limit form a prefix in non-increasing score
order while all entries below the limit follow it. -/
theorem partial_insertion_sort_spec (l : List ExtMove) (limit : Int) :
    (partial_insertion_sort l limit).Perm l ∧
    ∃ k, k ≤ (partial_insertion_sort l limit).length ∧
      SortedDescVal ((partial_insertion_sort l limit).take k) ∧
      (∀ i, i < k →
        limit ≤ ((partial_insertion_sort l limit).getD i em0).value) ∧
      (∀ i, k ≤ i → i < (partial_insertion_sort l limit).length →
        ((partial_insertion_sort l limit).getD i em0).value < limit) := by
  have hsor1 : SortedDescVal (l.take 1) := by
    cases l with
    | nil => exact List.Pairwise.nil
    | cons a t =>
      rw [show (a :: t).take 1 = [a] from by simp]
      exact List.sorted_singleton a
  obtain ⟨se2, hP, hS, hT⟩ := pisLoop_spec limit l.length l 0 1
    (by omega) (by omega) hsor1 (by omega)
  rw [show pisLoop limit l.length l 0 1 = partial_insertion_sort l limit from rfl]
    at hP hS hT
  have hlen : (partial_insertion_sort l limit).length = l.length := hP.length_eq
  refine ⟨hP, ?_⟩
  generalize hg : partial_insertion_sort l limit = r at hP hS hT hlen ⊢
  have hex : ∃ k, k = r.length ∨
      ¬ limit ≤ (r.getD k em0).value :=
    ⟨r.length, Or.inl rfl⟩
  obtain ⟨k, hkspec, hkmin, hkle⟩ : ∃ k,
      (k = r.length ∨ ¬ limit ≤ (r.getD k em0).value) ∧
      (∀ m, m < k → ¬ (m = r.length ∨ ¬ limit ≤ (r.getD m em0).value)) ∧
      k ≤ r.length :=
    ⟨Nat.find hex, Nat.find_spec hex, fun m hm => Nat.find_min hex hm,
      Nat.find_le (Or.inl rfl)⟩
  refine ⟨k, hkle, ?_, ?_, ?_⟩
  · -- sorted prefix: k is within the sorted region
    have hk : k ≤ se2 + 1 := by
      by_contra hgt
      push_neg at hgt
      have h1 := hkmin (se2 + 1) (by omega)
      push_neg at h1
      obtain ⟨hne, hge⟩ := h1
      have hlt : se2 + 1 < l.length := by omega
      exact absurd hge (not_le.mpr (hT (se2 + 1) (by omega) hlt))
    have heq : r.take k = (r.take (se2 + 1)).take k := by
      rw [List.take_take, min_eq_left hk]
    rw [heq]
    exact hS.sublist (List.take_sublist _ _)
  · intro i hi
    have h1 := hkmin i hi
    push_neg at h1
    exact h1.2
  · intro i hki hilen
    by_cases hik : i = k
    · subst hik
      rcases hkspec with h1 | h1
      · omega
      · omega
    · have hkf : k < i := by omega
      rcases hkspec with h1 | h1
      · omega
      · by_cases hise : i ≤ se2
        · have hsidx := sortedDesc_getD (r.take (se2 + 1)) hS k i hkf
            (by rw [List.length_take]; omega)
          rw [getD_take _ _ _ (by omega), getD_take _ _ _ (by omega)] at hsidx
          omega
        · exact hT i (by omega) (by omega)

theorem mem_range_drop {c n x : Nat} : x ∈ (List.range n).drop c ↔ c ≤ x ∧ x < n := by
  rw [List.mem_iff_getElem?]
  constructor
  · rintro ⟨i, hi⟩
    rw [List.getElem?_drop] at hi
    by_cases h : c + i < n
    · rw [List.getElem?_range h] at hi
      injection hi with h2
      omega
    · rw [List.getElem?_eq_none (by simp only [List.length_range]; omega)] at hi
      exact absurd hi (by simp)
  · rintro ⟨h1, h2⟩
    refine ⟨x - c, ?_⟩
    rw [List.getElem?_drop, show c + (x - c) = x from by omega, List.getElem?_range h2]

theorem foldl_pick_mem (l : List ExtMove) :
    ∀ (rest : List Nat) (j : Nat),
      rest.foldl (fun best i =>
        if (l.getD best em0).value < (l.getD i em0).value then i else best) j ∈
        j :: rest := by
  intro rest
  induction rest with
  | nil => intro j; simp
  | cons a t ih =>
    intro j
    rw [List.foldl_cons]
    by_cases h : (l.getD j em0).value < (l.getD a em0).value
    · rw [if_pos h]
      have := ih a
      rcases List.mem_cons.mp this with h1 | h1
      · exact List.mem_cons.mpr (Or.inr (List.mem_cons.mpr (Or.inl h1)))
      · exact List.mem_cons.mpr (Or.inr (List.mem_cons.mpr (Or.inr h1)))
    · rw [if_neg h]
      have := ih j
      rcases List.mem_cons.mp this with h1 | h1
      · exact List.mem_cons.mpr (Or.inl h1)
      · exact List.mem_cons.mpr (Or.inr (List.mem_cons.mpr (Or.inr h1)))

theorem foldl_pick_ge (l : List ExtMove) :
    ∀ (rest : List Nat) (j x : Nat), x ∈ j :: rest →
      (l.getD x em0).value ≤
        (l.getD (rest.foldl (fun best i =>
          if (l.getD best em0).value < (l.getD i em0).value then i else best) j)
          em0).value := by
  intro rest
  induction rest with
  | nil =>
    intro j x hx
    rcases List.mem_cons.mp hx with h1 | h1
    · subst h1; simp
    · simp at h1
  | cons a t ih =>
    intro j x hx
    rw [List.foldl_cons]
    have hja : (l.getD j em0).value ≤
        (l.getD (if (l.getD j em0).value < (l.getD a em0).value then a else j)
          em0).value := by
      by_cases h : (l.getD j em0).value < (l.getD a em0).value
      · rw [if_pos h]; exact le_of_lt h
      · rw [if_neg h]
    have haa : (l.getD a em0).value ≤
        (l.getD (if (l.getD j em0).value < (l.getD a em0).value then a else j)
          em0).value := by
      by_cases h : (l.getD j em0).value < (l.getD a em0).value
      · rw [if_pos h]
      · rw [if_neg h]; omega
    rcases List.mem_cons.mp hx with h1 | h1
    · subst h1
      exact le_trans hja (ih _ _ (List.mem_cons_self _ _))
    · rcases List.mem_cons.mp h1 with h2 | h2
      · subst h2
        exact le_trans haa (ih _ _ (List.mem_cons_self _ _))
      · exact ih _ x (List.mem_cons.mpr (Or.inr h2))

theorem max_element_spec (l : List ExtMove) (cur endM i : Nat)
    (h : max_element l cur endM = some i) :
    (cur ≤ i ∧ i < endM) ∧
    ∀ j, cur ≤ j → j < endM → (l.getD j em0).value ≤ (l.getD i em0).value := by
  unfold max_element at h
  rcases hd : (List.range endM).drop cur with _ | ⟨j0, rest⟩
  · rw [hd] at h; exact absurd h (by simp)
  · rw [hd] at h
    simp only [Option.some.injEq] at h
    subst h
    constructor
    · have hmem := foldl_pick_mem l rest j0
      rw [← hd] at hmem
      exact mem_range_drop.mp hmem
    · intro j hj1 hj2
      have hjmem : j ∈ j0 :: rest := by
        rw [← hd]
        exact mem_range_drop.mpr ⟨hj1, hj2⟩
      exact foldl_pick_ge l rest j0 j hjmem

theorem getD_set_value_le (l : List ExtMove) (i j : Nat) (a : ExtMove) (B : Int)
    (hj : (l.getD j em0).value ≤ B) (ha : a.value ≤ B) :
    ((l.set i a).getD j em0).value ≤ B := by
  by_cases hij : i = j
  · subst hij
    by_cases hlen : i < l.length
    · rw [getD_set_self l i a hlen]; exact ha
    · rw [List.set_eq_of_length_le (by omega)]; exact hj
  · rw [getD_set_ne l i j a hij]; exact hj

theorem getD_set_value_cases (l : List ExtMove) (i j : Nat) (a : ExtMove) :
    ((l.set i a).getD j em0).value = a.value ∨
    (l.set i a).getD j em0 = l.getD j em0 := by
  by_cases hij : i = j
  · subst hij
    by_cases hlen : i < l.length
    · exact Or.inl (by rw [getD_set_self l i a hlen])
    · exact Or.inr (by rw [List.set_eq_of_length_le (by omega)])
  · exact Or.inr (getD_set_ne l i j a hij)

theorem gc_loop_curend (fuel : Nat) (st : MovePicker) :
    (good_captures_loop fuel st).2.cur = st.cur ∧
    (good_captures_loop fuel st).2.endMoves = st.endMoves := by
  induction fuel generalizing st with
  | zero => exact ⟨rfl, rfl⟩
  | succ n ih =>
    rw [good_captures_loop]
    rcases hme : max_element st.moves st.cur st.endMoves with _ | i
    · exact ⟨rfl, rfl⟩
    · simp only []
      split
      · exact ⟨rfl, rfl⟩
      · split
        · split
          · exact ⟨rfl, rfl⟩
          · exact ih _
        · exact ih _

theorem gc_loop_ret (fuel : Nat) (st : MovePicker) (m : Move) (v : Int)
    (h : (good_captures_loop fuel st).1 = some (m, v)) :
    INT_MIN + 1 < v ∧
    (∃ j, st.cur ≤ j ∧ j < st.endMoves ∧ v ≤ (st.moves.getD j em0).value) ∧
    (∀ j, st.cur ≤ j → j < st.endMoves →
      ((good_captures_loop fuel st).2.moves.getD j em0).value ≤ v) := by
  induction fuel generalizing st with
  | zero => exact absurd h (by simp [good_captures_loop])
  | succ n ih =>
    revert h
    rw [good_captures_loop]
    rcases hme : max_element st.moves st.cur st.endMoves with _ | i
    · intro h
      exact absurd h (by simp)
    · intro h
      have M := max_element_spec st.moves st.cur st.endMoves i hme
      simp only [] at h ⊢
      by_cases hle : (st.moves.getD i em0).value ≤ INT_MIN + 1
      · rw [if_pos hle] at h
        exact absurd h (by simp)
      · rw [if_neg hle] at h ⊢
        by_cases htt : (st.moves.getD i em0).move ≠ st.ttMove
        · rw [if_pos htt] at h ⊢
          by_cases hsee : st.pos.see_ge (st.moves.getD i em0).move
              (Int.tdiv (-55 * (st.moves.getD i em0).value) 1024) = true
          · rw [if_pos hsee] at h ⊢
            simp only [Option.some.injEq, Prod.mk.injEq] at h
            obtain ⟨hm, hv⟩ := h
            refine ⟨by omega, ⟨i, M.1.1, M.1.2, by omega⟩, ?_⟩
            intro j hj1 hj2
            apply getD_set_value_le
            · have := M.2 j hj1 hj2
              omega
            · simp only []
              omega
          · rw [if_neg hsee] at h ⊢
            obtain ⟨hlt, ⟨j, hj1, hj2, hjv⟩, hpost⟩ := ih _ h
            refine ⟨hlt, ?_, hpost⟩
            rcases getD_set_value_cases
                ((st.moves.set i ⟨(st.moves.getD i em0).move, INT_MIN + 1⟩)) i j
                ⟨(st.moves.getD i em0).move, INT_MIN⟩ with hc | hc
            · rw [hc] at hjv
              simp only [] at hjv
              omega
            · rw [hc] at hjv
              rcases getD_set_value_cases st.moves i j
                  ⟨(st.moves.getD i em0).move, INT_MIN + 1⟩ with hc2 | hc2
              · rw [hc2] at hjv
                simp only [] at hjv
                omega
              · rw [hc2] at hjv
                exact ⟨j, hj1, hj2, hjv⟩
        · rw [if_neg htt] at h ⊢
          obtain ⟨hlt, ⟨j, hj1, hj2, hjv⟩, hpost⟩ := ih _ h
          refine ⟨hlt, ?_, hpost⟩
          rcases getD_set_value_cases st.moves i j
              ⟨(st.moves.getD i em0).move, INT_MIN⟩ with hc | hc
          · rw [hc] at hjv
            simp only [] at hjv
            omega
          · rw [hc] at hjv
            exact ⟨j, hj1, hj2, hjv⟩

theorem ev_loop_ret (fuel : Nat) (st : MovePicker) (m : Move) (v : Int)
    (hlen : st.endMoves ≤ st.moves.length)
    (h : (evasions_loop fuel st).1 = some (m, v)) :
    (∃ j, st.cur ≤ j ∧ j < st.endMoves ∧
      (v ≤ (st.moves.getD j em0).value ∨ v ≤ INT_MIN)) ∧
    (∀ j, st.cur ≤ j → j < st.endMoves →
      (((evasions_loop fuel st).2.moves.getD j em0).value ≤ v ∨
       ((evasions_loop fuel st).2.moves.getD j em0).value ≤ INT_MIN)) ∧
    (∃ j0, st.cur ≤ j0 ∧ j0 < st.endMoves ∧
      ((evasions_loop fuel st).2.moves.getD j0 em0).value = INT_MIN) ∧
    ((∃ j1, st.cur ≤ j1 ∧ j1 < st.endMoves ∧
        (st.moves.getD j1 em0).value = INT_MIN) → INT_MIN < v) := by
  induction fuel generalizing st with
  | zero => exact absurd h (by simp [evasions_loop])
  | succ n ih =>
    revert h
    rw [evasions_loop]
    rcases hme : max_element st.moves st.cur st.endMoves with _ | i
    · intro h
      exact absurd h (by simp)
    · intro h
      have M := max_element_spec st.moves st.cur st.endMoves i hme
      have hilen : i < st.moves.length := lt_of_lt_of_le M.1.2 hlen
      simp only [] at h ⊢
      by_cases hIM : (st.moves.getD i em0).value = INT_MIN
      · rw [if_pos hIM] at h
        exact absurd h (by simp)
      · rw [if_neg hIM] at h ⊢
        by_cases htt : (st.moves.getD i em0).move ≠ st.ttMove
        · rw [if_pos htt] at h ⊢
          simp only [Option.some.injEq, Prod.mk.injEq] at h
          obtain ⟨hm, hv⟩ := h
          refine ⟨⟨i, M.1.1, M.1.2, Or.inl (by omega)⟩, ?_, ?_, ?_⟩
          · intro j hj1 hj2
            rcases getD_set_value_cases st.moves i j
                ⟨(st.moves.getD i em0).move, INT_MIN⟩ with hc | hc
            · rw [hc]
              simp only []
              omega
            · rw [hc]
              have := M.2 j hj1 hj2
              omega
          · refine ⟨i, M.1.1, M.1.2, ?_⟩
            rw [getD_set_self st.moves i _ hilen]
          · rintro ⟨j1, hj1a, hj1b, hj1f⟩
            have := M.2 j1 hj1a hj1b
            omega
        · rw [if_neg htt] at h ⊢
          have hlen2 : st.endMoves ≤
              (st.moves.set i ⟨(st.moves.getD i em0).move, INT_MIN⟩).length := by
            rw [List.length_set]
            exact hlen
          obtain ⟨⟨j, hj1, hj2, hjv⟩, hpost, hex, _⟩ := ih {st with moves := st.moves.set i ⟨(st.moves.getD i em0).move, INT_MIN⟩} hlen2 h
          simp only [] at hj1 hj2 hjv hpost hex
          refine ⟨?_, hpost, hex, ?_⟩
          · rcases getD_set_value_cases st.moves i j
                ⟨(st.moves.getD i em0).move, INT_MIN⟩ with hc | hc
            · rw [hc] at hjv
              simp only [] at hjv
              exact ⟨j, hj1, hj2, by omega⟩
            · rw [hc] at hjv
              exact ⟨j, hj1, hj2, hjv⟩
          · intro _
            apply (ih {st with moves := st.moves.set i ⟨(st.moves.getD i em0).move, INT_MIN⟩} hlen2 h).2.2.2
            refine ⟨i, M.1.1, M.1.2, ?_⟩
            simp only []
            rw [getD_set_self st.moves i _ hilen]

theorem pc_loop_ret (fuel : Nat) (st : MovePicker) (m : Move) (v : Int)
    (hlen : st.endMoves ≤ st.moves.length)
    (h : (probcut_loop fuel st).1 = some (m, v)) :
    (∃ j, st.cur ≤ j ∧ j < st.endMoves ∧
      (v ≤ (st.moves.getD j em0).value ∨ v ≤ INT_MIN)) ∧
    (∀ j, st.cur ≤ j → j < st.endMoves →
      (((probcut_loop fuel st).2.moves.getD j em0).value ≤ v ∨
       ((probcut_loop fuel st).2.moves.getD j em0).value ≤ INT_MIN)) ∧
    (∃ j0, st.cur ≤ j0 ∧ j0 < st.endMoves ∧
      ((probcut_loop fuel st).2.moves.getD j0 em0).value = INT_MIN) ∧
    ((∃ j1, st.cur ≤ j1 ∧ j1 < st.endMoves ∧
        (st.moves.getD j1 em0).value = INT_MIN) → INT_MIN < v) := by
  induction fuel generalizing st with
  | zero => exact absurd h (by simp [probcut_loop])
  | succ n ih =>
    revert h
    rw [probcut_loop]
    rcases hme : max_element st.moves st.cur st.endMoves with _ | i
    · intro h
      exact absurd h (by simp)
    · intro h
      have M := max_element_spec st.moves st.cur st.endMoves i hme
      have hilen : i < st.moves.length := lt_of_lt_of_le M.1.2 hlen
      simp only [] at h ⊢
      by_cases hIM : (st.moves.getD i em0).value = INT_MIN
      · rw [if_pos hIM] at h
        exact absurd h (by simp)
      · rw [if_neg hIM] at h ⊢
        by_cases hcnd : (st.moves.getD i em0).move ≠ st.ttMove ∧
            st.pos.see_ge (st.moves.getD i em0).move st.threshold = true
        · rw [if_pos hcnd] at h ⊢
          simp only [Option.some.injEq, Prod.mk.injEq] at h
          obtain ⟨hm, hv⟩ := h
          rw [List.set_set]
          refine ⟨⟨i, M.1.1, M.1.2, Or.inl (by omega)⟩, ?_, ?_, ?_⟩
          · intro j hj1 hj2
            rcases getD_set_value_cases st.moves i j
                ⟨(st.moves.getD i em0).move, INT_MIN⟩ with hc | hc
            · rw [hc]
              simp only []
              omega
            · rw [hc]
              have := M.2 j hj1 hj2
              omega
          · refine ⟨i, M.1.1, M.1.2, ?_⟩
            rw [getD_set_self st.moves i _ hilen]
          · rintro ⟨j1, hj1a, hj1b, hj1f⟩
            have := M.2 j1 hj1a hj1b
            omega
        · rw [if_neg hcnd] at h ⊢
          have hlen2 : st.endMoves ≤
              (st.moves.set i ⟨(st.moves.getD i em0).move, INT_MIN⟩).length := by
            rw [List.length_set]
            exact hlen
          obtain ⟨⟨j, hj1, hj2, hjv⟩, hpost, hex, _⟩ := ih {st with moves := st.moves.set i ⟨(st.moves.getD i em0).move, INT_MIN⟩} hlen2 h
          simp only [] at hj1 hj2 hjv hpost hex
          refine ⟨?_, hpost, hex, ?_⟩
          · rcases getD_set_value_cases st.moves i j
                ⟨(st.moves.getD i em0).move, INT_MIN⟩ with hc | hc
            · rw [hc] at hjv
              simp only [] at hjv
              exact ⟨j, hj1, hj2, by omega⟩
            · rw [hc] at hjv
              exact ⟨j, hj1, hj2, hjv⟩
          · intro _
            apply (ih {st with moves := st.moves.set i ⟨(st.moves.getD i em0).move, INT_MIN⟩} hlen2 h).2.2.2
            refine ⟨i, M.1.1, M.1.2, ?_⟩
            simp only []
            rw [getD_set_self st.moves i _ hilen]

theorem ev_loop_frame (fuel : Nat) (st : MovePicker) :
    (evasions_loop fuel st).2.cur = st.cur ∧
    (evasions_loop fuel st).2.endMoves = st.endMoves ∧
    (evasions_loop fuel st).2.moves.length = st.moves.length := by
  induction fuel generalizing st with
  | zero => exact ⟨rfl, rfl, rfl⟩
  | succ n ih =>
    rw [evasions_loop]
    rcases hme : max_element st.moves st.cur st.endMoves with _ | i
    · exact ⟨rfl, rfl, rfl⟩
    · simp only []
      split
      · exact ⟨rfl, rfl, rfl⟩
      · split
        · exact ⟨rfl, rfl, by rw [List.length_set]⟩
        · refine ⟨(ih _).1, (ih _).2.1, ((ih _).2.2).trans ?_⟩
          simp only []
          rw [List.length_set]

theorem pc_loop_frame (fuel : Nat) (st : MovePicker) :
    (probcut_loop fuel st).2.cur = st.cur ∧
    (probcut_loop fuel st).2.endMoves = st.endMoves ∧
    (probcut_loop fuel st).2.moves.length = st.moves.length := by
  induction fuel generalizing st with
  | zero => exact ⟨rfl, rfl, rfl⟩
  | succ n ih =>
    rw [probcut_loop]
    rcases hme : max_element st.moves st.cur st.endMoves with _ | i
    · exact ⟨rfl, rfl, rfl⟩
    · simp only []
      split
      · exact ⟨rfl, rfl, rfl⟩
      · split
        · exact ⟨rfl, rfl, by rw [List.length_set, List.length_set]⟩
        · refine ⟨(ih _).1, (ih _).2.1, ((ih _).2.2).trans ?_⟩
          simp only []
          rw [List.length_set]

theorem quiet_loop_ret (sq : Bool) (fuel : Nat) (st : MovePicker) (m : Move) (v : Int)
    (h : (quiet_loop sq fuel st).1 = some (m, v)) :
    ∃ j, st.cur ≤ j ∧ j < st.endMoves ∧
      (st.moves.getD j em0).move = m ∧ (st.moves.getD j em0).value = v ∧
      (quiet_loop sq fuel st).2.moves = st.moves ∧
      (quiet_loop sq fuel st).2.endMoves = st.endMoves ∧
      (quiet_loop sq fuel st).2.cur = j + 1 := by
  induction fuel generalizing st with
  | zero => exact absurd h (by simp [quiet_loop])
  | succ n ih =>
    revert h
    rw [quiet_loop]
    by_cases hg : st.cur < st.endMoves ∧
        (sq = false ∨ 0 ≤ (st.moves.getD st.cur em0).value)
    · rw [if_pos hg]
      simp only []
      by_cases hd : (st.moves.getD st.cur em0).move ≠ st.ttMove ∧
          (st.moves.getD st.cur em0).move ≠ st.killers.1 ∧
          (st.moves.getD st.cur em0).move ≠ st.killers.2 ∧
          (st.moves.getD st.cur em0).move ≠ st.countermove
      · rw [if_pos hd]
        intro h
        simp only [Option.some.injEq, Prod.mk.injEq] at h
        exact ⟨st.cur, le_refl _, hg.1, h.1, h.2, rfl, rfl, rfl⟩
      · rw [if_neg hd]
        intro h
        obtain ⟨j, hj1, hj2, hjm, hjv, hmov, hend, hcur⟩ :=
          ih {st with cur := st.cur + 1} h
        simp only [] at hj1 hj2 hjm hjv hmov hend hcur
        exact ⟨j, by omega, hj2, hjm, hjv, hmov, hend, hcur⟩
    · rw [if_neg hg]
      intro h
      exact absurd h (by simp)

/-- C4 (amended): in the scored selection stages of next_move the recorded
scores of successively returned moves never increase: unconditionally for the
GOOD_CAPTURES, ALL_EVASIONS and PROBCUT_CAPTURES selection loops, and for the
QUIET stage among the moves whose scores reach the partial-sort limit (below
the limit the quiets are left unsorted, as the counterexample shows). -/
theorem scored_stage_monotone :
    (∀ (st : MovePicker) (f1 f2 : Nat) (m1 m2 : Move) (v1 v2 : Int),
      (good_captures_loop f1 st).1 = some (m1, v1) →
      (good_captures_loop f2 (good_captures_loop f1 st).2).1 = some (m2, v2) →
      v2 ≤ v1) ∧
    (∀ (st : MovePicker) (f1 f2 : Nat) (m1 m2 : Move) (v1 v2 : Int),
      st.endMoves ≤ st.moves.length →
      (evasions_loop f1 st).1 = some (m1, v1) →
      (evasions_loop f2 (evasions_loop f1 st).2).1 = some (m2, v2) →
      v2 ≤ v1) ∧
    (∀ (st : MovePicker) (f1 f2 : Nat) (m1 m2 : Move) (v1 v2 : Int),
      st.endMoves ≤ st.moves.length →
      (probcut_loop f1 st).1 = some (m1, v1) →
      (probcut_loop f2 (probcut_loop f1 st).2).1 = some (m2, v2) →
      v2 ≤ v1) ∧
    (∀ (st : MovePicker) (sq : Bool) (limit : Int) (f1 f2 : Nat)
        (m1 m2 : Move) (v1 v2 : Int),
      SortedAbove limit st →
      (quiet_loop sq f1 st).1 = some (m1, v1) →
      (quiet_loop sq f2 (quiet_loop sq f1 st).2).1 = some (m2, v2) →
      limit ≤ v1 → limit ≤ v2 → v2 ≤ v1) := by
  refine ⟨?_, ?_, ?_, ?_⟩
  · intro st f1 f2 m1 m2 v1 v2 h1 h2
    obtain ⟨hlt1, _, hpost1⟩ := gc_loop_ret f1 st m1 v1 h1
    obtain ⟨hlt2, ⟨j, hj1, hj2, hjv⟩, _⟩ := gc_loop_ret f2 _ m2 v2 h2
    have hc := gc_loop_curend f1 st
    rw [hc.1] at hj1
    rw [hc.2] at hj2
    have := hpost1 j hj1 hj2
    omega
  · intro st f1 f2 m1 m2 v1 v2 hlen h1 h2
    obtain ⟨_, hpost1, hex1, _⟩ := ev_loop_ret f1 st m1 v1 hlen h1
    have hf := ev_loop_frame f1 st
    have hlen2 : (evasions_loop f1 st).2.endMoves ≤
        (evasions_loop f1 st).2.moves.length := by
      rw [hf.2.1, hf.2.2]
      exact hlen
    obtain ⟨⟨j, hj1, hj2, hjv⟩, _, _, hmin2⟩ := ev_loop_ret f2 _ m2 v2 hlen2 h2
    rw [hf.1] at hj1
    rw [hf.2.1] at hj2
    have hflag : ∃ j1, (evasions_loop f1 st).2.cur ≤ j1 ∧
        j1 < (evasions_loop f1 st).2.endMoves ∧
        ((evasions_loop f1 st).2.moves.getD j1 em0).value = INT_MIN := by
      obtain ⟨j0, hj0a, hj0b, hj0f⟩ := hex1
      exact ⟨j0, by rw [hf.1]; exact hj0a, by rw [hf.2.1]; exact hj0b, hj0f⟩
    have hv2 := hmin2 hflag
    have := hpost1 j hj1 hj2
    omega
  · intro st f1 f2 m1 m2 v1 v2 hlen h1 h2
    obtain ⟨_, hpost1, hex1, _⟩ := pc_loop_ret f1 st m1 v1 hlen h1
    have hf := pc_loop_frame f1 st
    have hlen2 : (probcut_loop f1 st).2.endMoves ≤
        (probcut_loop f1 st).2.moves.length := by
      rw [hf.2.1, hf.2.2]
      exact hlen
    obtain ⟨⟨j, hj1, hj2, hjv⟩, _, _, hmin2⟩ := pc_loop_ret f2 _ m2 v2 hlen2 h2
    rw [hf.1] at hj1
    rw [hf.2.1] at hj2
    have hflag : ∃ j1, (probcut_loop f1 st).2.cur ≤ j1 ∧
        j1 < (probcut_loop f1 st).2.endMoves ∧
        ((probcut_loop f1 st).2.moves.getD j1 em0).value = INT_MIN := by
      obtain ⟨j0, hj0a, hj0b, hj0f⟩ := hex1
      exact ⟨j0, by rw [hf.1]; exact hj0a, by rw [hf.2.1]; exact hj0b, hj0f⟩
    have hv2 := hmin2 hflag
    have := hpost1 j hj1 hj2
    omega
  · intro st sq limit f1 f2 m1 m2 v1 v2 hsort h1 h2 hl1 hl2
    obtain ⟨j1, ha1, hb1, hm1, hv1, hmov1, hend1, hcur1⟩ :=
      quiet_loop_ret sq f1 st m1 v1 h1
    obtain ⟨j2, ha2, hb2, hm2, hv2, _, _, _⟩ := quiet_loop_ret sq f2 _ m2 v2 h2
    rw [hcur1] at ha2
    rw [hend1] at hb2
    rw [hmov1] at hm2 hv2
    have := hsort j2 hb2 j1 (by omega) ha1 (by rw [hv1]; exact hl1)
      (by rw [hv2]; exact hl2)
    omega

/-- Witness for scored_stage_monotone: concrete two-entry picker states in
each scored stage; the loops return scores 100 then 50 (10 then 5 in the
quiet stage) and the theorem gives the non-increase each time. -/
theorem scored_stage_monotone_w :
    ((good_captures_loop 3 stGC).1 = some (make_move 0 1, 100) ∧
     (good_captures_loop 3 (good_captures_loop 3 stGC).2).1 =
       some (make_move 0 8, 50) ∧
     (50 : Int) ≤ 100) ∧
    (stEV.endMoves ≤ stEV.moves.length ∧
     (evasions_loop 3 stEV).1 = some (make_move 0 1, 100) ∧
     (evasions_loop 3 (evasions_loop 3 stEV).2).1 = some (make_move 0 8, 50) ∧
     (50 : Int) ≤ 100) ∧
    (stPC.endMoves ≤ stPC.moves.length ∧
     (probcut_loop 3 stPC).1 = some (make_move 0 1, 100) ∧
     (probcut_loop 3 (probcut_loop 3 stPC).2).1 = some (make_move 0 8, 50) ∧
     (50 : Int) ≤ 100) ∧
    (SortedAbove (-4000) stQ2 ∧
     (quiet_loop false 3 stQ2).1 = some (make_move 0 1, 10) ∧
     (quiet_loop false 3 (quiet_loop false 3 stQ2).2).1 =
       some (make_move 0 8, 5) ∧
     (-4000 : Int) ≤ 10 ∧ (-4000 : Int) ≤ 5 ∧ (5 : Int) ≤ 10) :=
  ⟨⟨by decide, by decide,
    scored_stage_monotone.1 stGC 3 3 (make_move 0 1) (make_move 0 8) 100 50
      (by decide) (by decide)⟩,
   ⟨by decide, by decide, by decide,
    scored_stage_monotone.2.1 stEV 3 3 (make_move 0 1) (make_move 0 8) 100 50
      (by decide) (by decide) (by decide)⟩,
   ⟨by decide, by decide, by decide,
    scored_stage_monotone.2.2.1 stPC 3 3 (make_move 0 1) (make_move 0 8) 100 50
      (by decide) (by decide) (by decide)⟩,
   ⟨by unfold SortedAbove; decide, by decide, by decide, by decide, by decide,
    scored_stage_monotone.2.2.2 stQ2 false (-4000) 3 3
      (make_move 0 1) (make_move 0 8) 10 5
      (by unfold SortedAbove; decide) (by decide) (by decide)
      (by decide) (by decide)⟩⟩

theorem pieces_testBit (pos : Position) (t : Nat) :
    pos.pieces.testBit t =
      (((pos.byColor WHITE).testBit t) || ((pos.byColor BLACK).testBit t)) := by
  unfold Position.pieces
  rw [Nat.testBit_lor]

theorem byColor_opp_cases (pos : Position) (t : Nat)
    (hdisj : pos.byColor WHITE &&& pos.byColor BLACK = 0) :
    ¬((pos.byColor pos.side_to_move).testBit t = true ∧
      (pos.byColor pos.side_to_move.opp).testBit t = true) := by
  rintro ⟨h1, h2⟩
  have hb := land_eq_zero_iff.mp hdisj t
  cases hc : pos.side_to_move <;>
    rw [hc] at h1 h2 <;> simp only [Color.opp] at h2 <;>
    rw [h1, h2] at hb <;> simp at hb

theorem mem_serialize_union (pos : Position)
    (hdisj : pos.byColor WHITE &&& pos.byColor BLACK = 0) (a : Bitboard) (t : Nat) :
    t ∈ serialize (a &&& bbNot (pos.byColor pos.side_to_move)) ↔
      (t ∈ serialize (a &&& pos.byColor pos.side_to_move.opp) ∨
       t ∈ serialize (a &&& bbNot pos.pieces)) := by
  have hdt := byColor_opp_cases pos t hdisj
  simp only [mem_serialize, Nat.testBit_land, bbNot_testBit, pieces_testBit,
    Bool.and_eq_true, Bool.or_eq_true, Bool.not_eq_true', Bool.or_eq_false_iff,
    decide_eq_true_eq]
  constructor
  · rintro ⟨ht, ha, -, hus⟩
    by_cases hthem : (pos.byColor pos.side_to_move.opp).testBit t = true
    · exact Or.inl ⟨ht, ha, hthem⟩
    · refine Or.inr ⟨ht, ha, ht, ?_⟩
      cases hc : pos.side_to_move
      · constructor
        · rw [hc] at hus; exact hus
        · rw [hc] at hthem; simp only [Color.opp] at hthem
          simp only [Bool.not_eq_true] at hthem; exact hthem
      · constructor
        · rw [hc] at hthem; simp only [Color.opp] at hthem
          simp only [Bool.not_eq_true] at hthem; exact hthem
        · rw [hc] at hus; exact hus
  · rintro (⟨ht, ha, hthem⟩ | ⟨ht, ha, -, hw, hb⟩)
    · refine ⟨ht, ha, ht, ?_⟩
      by_contra hus
      simp only [Bool.not_eq_false] at hus
      exact hdt ⟨hus, hthem⟩
    · refine ⟨ht, ha, ht, ?_⟩
      cases hc : pos.side_to_move
      · exact hw
      · exact hb

theorem capture_quiet_bit_disj (pos : Position) (a b : Bitboard) (t : Nat)
    (h1 : t ∈ serialize (a &&& pos.byColor pos.side_to_move.opp))
    (h2 : t ∈ serialize (b &&& bbNot pos.pieces)) : False := by
  simp only [mem_serialize, Nat.testBit_land, bbNot_testBit, pieces_testBit,
    Bool.and_eq_true, Bool.or_eq_true, Bool.not_eq_true', Bool.or_eq_false_iff,
    decide_eq_true_eq] at h1 h2
  obtain ⟨-, -, hthem⟩ := h1
  obtain ⟨-, -, -, hw, hb⟩ := h2
  cases hc : pos.side_to_move <;> rw [hc] at hthem <;>
    simp only [Color.opp] at hthem
  · rw [hthem] at hb; simp at hb
  · rw [hthem] at hw; simp at hw

/-- generate_pawn_moves in CAPTURES mode: the mode tests reduced, the source
shape kept. -/
theorem gpm_captures_eq (u : Color) (pos : Position) (target : Bitboard) :
    generate_pawn_moves u CAPTURES pos target =
      (let Them := u.opp
       let TRank7BB := if u = WHITE then rbb 6 else rbb 1
       let Up : Direction := if u = WHITE then NORTH else SOUTH
       let UpRight : Direction := if u = WHITE then NORTH_EAST else SOUTH_WEST
       let UpLeft : Direction := if u = WHITE then NORTH_WEST else SOUTH_EAST
       let ksq := pos.king_sq Them
       let pawnsOn7 := pos.byTypeC u PAWN &&& TRank7BB
       let pawnsNotOn7 := pos.byTypeC u PAWN &&& bbNot TRank7BB
       let enemies := target
       let emptySquares := bbNot pos.pieces
       let promos :=
         if pawnsOn7 ≠ 0 then
           let b1 := shift UpRight pawnsOn7 &&& enemies
           let b2 := shift UpLeft pawnsOn7 &&& enemies
           let b3 := shift Up pawnsOn7 &&& emptySquares
           (serialize b1).flatMap (fun t2 => make_promotions CAPTURES UpRight t2 ksq)
           ++ (serialize b2).flatMap (fun t2 => make_promotions CAPTURES UpLeft t2 ksq)
           ++ (serialize b3).flatMap (fun t2 => make_promotions CAPTURES Up t2 ksq)
         else []
       let caps :=
         let b1 := shift UpRight pawnsNotOn7 &&& enemies
         let b2 := shift UpLeft pawnsNotOn7 &&& enemies
         (serialize b1).map (fun t2 => make_move (sqSub t2 UpRight.offset) t2)
         ++ (serialize b2).map (fun t2 => make_move (sqSub t2 UpLeft.offset) t2)
         ++ (if pos.ep_square ≠ SQ_NONE then
               (serialize (pawnsNotOn7 &&& pawnAttacksFrom Them pos.ep_square)).map
                 (fun f => make_special ENPASSANT f pos.ep_square KNIGHT)
             else [])
       ([] : List Move) ++ promos ++ caps) := by rfl

/-- generate_pawn_moves in QUIETS mode: the mode tests reduced, the source
shape kept. -/
theorem gpm_quiets_eq (u : Color) (pos : Position) (target : Bitboard) :
    generate_pawn_moves u QUIETS pos target =
      (let Them := u.opp
       let TRank7BB := if u = WHITE then rbb 6 else rbb 1
       let TRank3BB := if u = WHITE then rbb 2 else rbb 5
       let Up : Direction := if u = WHITE then NORTH else SOUTH
       let UpRight : Direction := if u = WHITE then NORTH_EAST else SOUTH_WEST
       let UpLeft : Direction := if u = WHITE then NORTH_WEST else SOUTH_EAST
       let ksq := pos.king_sq Them
       let pawnsOn7 := pos.byTypeC u PAWN &&& TRank7BB
       let pawnsNotOn7 := pos.byTypeC u PAWN &&& bbNot TRank7BB
       let enemies := pos.byColor Them
       let emptySquares := target
       let pushes :=
         let b1 := shift Up pawnsNotOn7 &&& emptySquares
         let b2 := shift Up (b1 &&& TRank3BB) &&& emptySquares
         (serialize b1).map (fun t2 => make_move (sqSub t2 Up.offset) t2)
         ++ (serialize b2).map
              (fun t2 => make_move (sqSub (sqSub t2 Up.offset) Up.offset) t2)
       let promos :=
         if pawnsOn7 ≠ 0 then
           let b1 := shift UpRight pawnsOn7 &&& enemies
           let b2 := shift UpLeft pawnsOn7 &&& enemies
           let b3 := shift Up pawnsOn7 &&& emptySquares
           (serialize b1).flatMap (fun t2 => make_promotions QUIETS UpRight t2 ksq)
           ++ (serialize b2).flatMap (fun t2 => make_promotions QUIETS UpLeft t2 ksq)
           ++ (serialize b3).flatMap (fun t2 => make_promotions QUIETS Up t2 ksq)
         else []
       pushes ++ promos ++ ([] : List Move)) := by rfl

/-- generate_pawn_moves in NON_EVASIONS mode: the mode tests reduced, the
source shape kept. -/
theorem gpm_nonevasions_eq (u : Color) (pos : Position) (target : Bitboard) :
    generate_pawn_moves u NON_EVASIONS pos target =
      (let Them := u.opp
       let TRank7BB := if u = WHITE then rbb 6 else rbb 1
       let TRank3BB := if u = WHITE then rbb 2 else rbb 5
       let Up : Direction := if u = WHITE then NORTH else SOUTH
       let UpRight : Direction := if u = WHITE then NORTH_EAST else SOUTH_WEST
       let UpLeft : Direction := if u = WHITE then NORTH_WEST else SOUTH_EAST
       let ksq := pos.king_sq Them
       let pawnsOn7 := pos.byTypeC u PAWN &&& TRank7BB
       let pawnsNotOn7 := pos.byTypeC u PAWN &&& bbNot TRank7BB
       let enemies := pos.byColor Them
       let emptySquares := bbNot pos.pieces
       let pushes :=
         let b1 := shift Up pawnsNotOn7 &&& emptySquares
         let b2 := shift Up (b1 &&& TRank3BB) &&& emptySquares
         (serialize b1).map (fun t2 => make_move (sqSub t2 Up.offset) t2)
         ++ (serialize b2).map
              (fun t2 => make_move (sqSub (sqSub t2 Up.offset) Up.offset) t2)
       let promos :=
         if pawnsOn7 ≠ 0 then
           let b1 := shift UpRight pawnsOn7 &&& enemies
           let b2 := shift UpLeft pawnsOn7 &&& enemies
           let b3 := shift Up pawnsOn7 &&& emptySquares
           (serialize b1).flatMap
             (fun t2 => make_promotions NON_EVASIONS UpRight t2 ksq)
           ++ (serialize b2).flatMap
             (fun t2 => make_promotions NON_EVASIONS UpLeft t2 ksq)
           ++ (serialize b3).flatMap
             (fun t2 => make_promotions NON_EVASIONS Up t2 ksq)
         else []
       let caps :=
         let b1 := shift UpRight pawnsNotOn7 &&& enemies
         let b2 := shift UpLeft pawnsNotOn7 &&& enemies
         (serialize b1).map (fun t2 => make_move (sqSub t2 UpRight.offset) t2)
         ++ (serialize b2).map (fun t2 => make_move (sqSub t2 UpLeft.offset) t2)
         ++ (if pos.ep_square ≠ SQ_NONE then
               (serialize (pawnsNotOn7 &&& pawnAttacksFrom Them pos.ep_square)).map
                 (fun f => make_special ENPASSANT f pos.ep_square KNIGHT)
             else [])
       pushes ++ promos ++ caps) := by rfl

/-- Promotion lists split pointwise under flatMap: the NON_EVASIONS
promotions at each square are the CAPTURES ones followed by the QUIETS
ones. -/
theorem mem_flatMap_promo_split (l : List Nat) (D : Direction) (ksq : Nat)
    (m : Move) :
    m ∈ l.flatMap (fun t2 => make_promotions NON_EVASIONS D t2 ksq) ↔
      (m ∈ l.flatMap (fun t2 => make_promotions CAPTURES D t2 ksq) ∨
       m ∈ l.flatMap (fun t2 => make_promotions QUIETS D t2 ksq)) := by
  simp only [List.mem_flatMap]
  constructor
  · rintro ⟨t2, ht, hm⟩
    rw [show make_promotions NON_EVASIONS D t2 ksq =
        make_promotions CAPTURES D t2 ksq ++ make_promotions QUIETS D t2 ksq
        from rfl, List.mem_append] at hm
    rcases hm with h | h
    · exact Or.inl ⟨t2, ht, h⟩
    · exact Or.inr ⟨t2, ht, h⟩
  · rintro (⟨t2, ht, hm⟩ | ⟨t2, ht, hm⟩) <;> refine ⟨t2, ht, ?_⟩ <;>
      rw [show make_promotions NON_EVASIONS D t2 ksq =
        make_promotions CAPTURES D t2 ksq ++ make_promotions QUIETS D t2 ksq
        from rfl, List.mem_append]
    · exact Or.inl hm
    · exact Or.inr hm

/-- Pawn segment union: the NON_EVASIONS pawn moves are exactly the CAPTURES
pawn moves together with the QUIETS pawn moves. -/
theorem pawn_union (pos : Position) (m : Move) :
    m ∈ generate_pawn_moves pos.side_to_move NON_EVASIONS pos
        (bbNot (pos.byColor pos.side_to_move)) ↔
      (m ∈ generate_pawn_moves pos.side_to_move CAPTURES pos
          (pos.byColor pos.side_to_move.opp) ∨
       m ∈ generate_pawn_moves pos.side_to_move QUIETS pos (bbNot pos.pieces)) := by
  rw [gpm_nonevasions_eq, gpm_captures_eq, gpm_quiets_eq]
  simp only []
  by_cases h7 : (pos.byTypeC pos.side_to_move PAWN &&&
      (if pos.side_to_move = WHITE then rbb 6 else rbb 1)) ≠ 0
  · rw [if_pos h7, if_pos h7, if_pos h7]
    simp only [List.mem_append, List.not_mem_nil, false_or, or_false,
      mem_flatMap_promo_split]
    tauto
  · rw [if_neg h7, if_neg h7, if_neg h7]
    simp only [List.mem_append, List.not_mem_nil, false_or, or_false]
    tauto

/-- generate_moves with Checks = false: the plain flatMap over the piece
squares. -/
theorem generate_moves_nochecks_eq (Pt : PieceType) (pos : Position) (u : Color)
    (target : Bitboard) :
    generate_moves Pt false pos u target =
      (pos.squares_l u Pt).flatMap (fun fr =>
        (serialize (pos.attacks_from Pt fr &&& target)).map (make_move fr)) := by
  rfl

/-- Piece segment union under colour disjointness: aiming a piece at all
non-own squares gives exactly the union of aiming it at enemies and at empty
squares. -/
theorem piece_union (pos : Position) (Pt : PieceType)
    (hdisj : pos.byColor WHITE &&& pos.byColor BLACK = 0) (m : Move) :
    m ∈ generate_moves Pt false pos pos.side_to_move
        (bbNot (pos.byColor pos.side_to_move)) ↔
      (m ∈ generate_moves Pt false pos pos.side_to_move
          (pos.byColor pos.side_to_move.opp) ∨
       m ∈ generate_moves Pt false pos pos.side_to_move (bbNot pos.pieces)) := by
  rw [generate_moves_nochecks_eq, generate_moves_nochecks_eq,
    generate_moves_nochecks_eq]
  simp only [List.mem_flatMap, List.mem_map]
  constructor
  · rintro ⟨fr, hfr, t, ht, rfl⟩
    rcases (mem_serialize_union pos hdisj _ t).mp ht with h | h
    · exact Or.inl ⟨fr, hfr, t, h, rfl⟩
    · exact Or.inr ⟨fr, hfr, t, h, rfl⟩
  · rintro (⟨fr, hfr, t, ht, rfl⟩ | ⟨fr, hfr, t, ht, rfl⟩)
    · exact ⟨fr, hfr, t, (mem_serialize_union pos hdisj _ t).mpr (Or.inl ht), rfl⟩
    · exact ⟨fr, hfr, t, (mem_serialize_union pos hdisj _ t).mpr (Or.inr ht), rfl⟩

/-- generate<CAPTURES>: target byColor(them); no castling block. -/
theorem generate_captures_eq (pos : Position) :
    generate CAPTURES pos =
      (let u := pos.side_to_move
       let target := pos.byColor u.opp
       generate_pawn_moves u CAPTURES pos target
       ++ generate_moves KNIGHT false pos u target
       ++ generate_moves BISHOP false pos u target
       ++ generate_moves ROOK false pos u target
       ++ generate_moves QUEEN false pos u target
       ++ ((serialize (pos.attacks_from KING (pos.king_sq u) &&& target)).map
            (make_move (pos.king_sq u))
          ++ ([] : List Move))) := by rfl

/-- generate<QUIETS>: target the empty squares; castling included. -/
theorem generate_quiets_eq (pos : Position) :
    generate QUIETS pos =
      (let u := pos.side_to_move
       let target := bbNot pos.pieces
       generate_pawn_moves u QUIETS pos target
       ++ generate_moves KNIGHT false pos u target
       ++ generate_moves BISHOP false pos u target
       ++ generate_moves ROOK false pos u target
       ++ generate_moves QUEEN false pos u target
       ++ ((serialize (pos.attacks_from KING (pos.king_sq u) &&& target)).map
            (make_move (pos.king_sq u))
          ++ (if (QUIETS : GenType) ≠ CAPTURES ∧
                (pos.can_castle_k u ∨ pos.can_castle_q u) then
              (if ¬ pos.castling_impeded_k u ∧ pos.can_castle_k u then
                [make_special CASTLING (pos.king_sq u) (pos.castling_rook_k u)
                  KNIGHT] else [])
              ++ (if ¬ pos.castling_impeded_q u ∧ pos.can_castle_q u then
                [make_special CASTLING (pos.king_sq u) (pos.castling_rook_q u)
                  KNIGHT] else [])
              else []))) := by rfl

/-- generate<NON_EVASIONS>: target all non-own squares; castling included. -/
theorem generate_nonevasions_eq (pos : Position) :
    generate NON_EVASIONS pos =
      (let u := pos.side_to_move
       let target := bbNot (pos.byColor u)
       generate_pawn_moves u NON_EVASIONS pos target
       ++ generate_moves KNIGHT false pos u target
       ++ generate_moves BISHOP false pos u target
       ++ generate_moves ROOK false pos u target
       ++ generate_moves QUEEN false pos u target
       ++ ((serialize (pos.attacks_from KING (pos.king_sq u) &&& target)).map
            (make_move (pos.king_sq u))
          ++ (if (NON_EVASIONS : GenType) ≠ CAPTURES ∧
                (pos.can_castle_k u ∨ pos.can_castle_q u) then
              (if ¬ pos.castling_impeded_k u ∧ pos.can_castle_k u then
                [make_special CASTLING (pos.king_sq u) (pos.castling_rook_k u)
                  KNIGHT] else [])
              ++ (if ¬ pos.castling_impeded_q u ∧ pos.can_castle_q u then
                [make_special CASTLING (pos.king_sq u) (pos.castling_rook_q u)
                  KNIGHT] else [])
              else []))) := by rfl

/-- King-step union under colour disjointness. -/
theorem mem_map_serialize_union (pos : Position)
    (hdisj : pos.byColor WHITE &&& pos.byColor BLACK = 0) (a : Bitboard)
    (f : Nat → Move) (m : Move) :
    m ∈ (serialize (a &&& bbNot (pos.byColor pos.side_to_move))).map f ↔
      (m ∈ (serialize (a &&& pos.byColor pos.side_to_move.opp)).map f ∨
       m ∈ (serialize (a &&& bbNot pos.pieces)).map f) := by
  simp only [List.mem_map]
  constructor
  · rintro ⟨t, ht, rfl⟩
    rcases (mem_serialize_union pos hdisj _ t).mp ht with h | h
    · exact Or.inl ⟨t, h, rfl⟩
    · exact Or.inr ⟨t, h, rfl⟩
  · rintro (⟨t, ht, rfl⟩ | ⟨t, ht, rfl⟩)
    · exact ⟨t, (mem_serialize_union pos hdisj _ t).mpr (Or.inl ht), rfl⟩
    · exact ⟨t, (mem_serialize_union pos hdisj _ t).mpr (Or.inr ht), rfl⟩

/-- The castling block does not depend on the (non-CAPTURES) mode. -/
theorem castle_block_align (pos : Position) :
    (if (QUIETS : GenType) ≠ CAPTURES ∧
        (pos.can_castle_k pos.side_to_move ∨ pos.can_castle_q pos.side_to_move) then
      (if ¬ pos.castling_impeded_k pos.side_to_move ∧
          pos.can_castle_k pos.side_to_move then
        [make_special CASTLING (pos.king_sq pos.side_to_move)
          (pos.castling_rook_k pos.side_to_move) KNIGHT] else [])
      ++ (if ¬ pos.castling_impeded_q pos.side_to_move ∧
          pos.can_castle_q pos.side_to_move then
        [make_special CASTLING (pos.king_sq pos.side_to_move)
          (pos.castling_rook_q pos.side_to_move) KNIGHT] else [])
     else []) =
    (if (NON_EVASIONS : GenType) ≠ CAPTURES ∧
        (pos.can_castle_k pos.side_to_move ∨ pos.can_castle_q pos.side_to_move) then
      (if ¬ pos.castling_impeded_k pos.side_to_move ∧
          pos.can_castle_k pos.side_to_move then
        [make_special CASTLING (pos.king_sq pos.side_to_move)
          (pos.castling_rook_k pos.side_to_move) KNIGHT] else [])
      ++ (if ¬ pos.castling_impeded_q pos.side_to_move ∧
          pos.can_castle_q pos.side_to_move then
        [make_special CASTLING (pos.king_sq pos.side_to_move)
          (pos.castling_rook_q pos.side_to_move) KNIGHT] else [])
     else []) := by
  apply if_congr _ rfl rfl
  constructor
  · rintro ⟨-, h⟩
    exact ⟨by decide, h⟩
  · rintro ⟨-, h⟩
    exact ⟨by decide, h⟩

/-- Union half of the C3 partition. -/
theorem generate_union (pos : Position)
    (hdisj : pos.byColor WHITE &&& pos.byColor BLACK = 0) (m : Move) :
    m ∈ generate NON_EVASIONS pos ↔
      (m ∈ generate CAPTURES pos ∨ m ∈ generate QUIETS pos) := by
  rw [generate_nonevasions_eq, generate_captures_eq, generate_quiets_eq]
  simp only []
  rw [castle_block_align pos]
  simp only [List.mem_append, List.not_mem_nil, or_false,
    pawn_union pos, piece_union pos KNIGHT hdisj, piece_union pos BISHOP hdisj,
    piece_union pos ROOK hdisj, piece_union pos QUEEN hdisj,
    mem_map_serialize_union pos hdisj]
  tauto

/-- A square cannot be both enemy-occupied and empty. -/
theorem them_empty_bit_disj (pos : Position) (t : Nat)
    (h1 : (pos.byColor pos.side_to_move.opp).testBit t = true)
    (h2 : (bbNot pos.pieces).testBit t = true) : False := by
  rw [bbNot_testBit] at h2
  simp only [Bool.and_eq_true, decide_eq_true_eq, Bool.not_eq_true'] at h2
  rw [pieces_testBit] at h2
  obtain ⟨-, h2⟩ := h2
  simp only [Bool.or_eq_false_iff] at h2
  cases hc : pos.side_to_move <;> rw [hc] at h1 <;>
    simp only [Color.opp] at h1
  · rw [h1] at h2
    simp at h2
  · rw [h1] at h2
    simp at h2

/-- The CAPTURES promotion list is the queen promotion alone. -/
theorem mem_make_promotions_captures {D : Direction} {t2 ksq : Nat} {m : Move}
    (h : m ∈ make_promotions CAPTURES D t2 ksq) :
    m = make_special PROMOTION (sqSub t2 D.offset) t2 QUEEN := by
  rw [show make_promotions CAPTURES D t2 ksq =
      [make_special PROMOTION (sqSub t2 D.offset) t2 QUEEN] ++ [] ++ []
      from rfl] at h
  simp only [List.append_nil, List.mem_singleton] at h
  exact h

/-- The QUIETS promotion list is the three underpromotions. -/
theorem mem_make_promotions_quiets {D : Direction} {t2 ksq : Nat} {m : Move}
    (h : m ∈ make_promotions QUIETS D t2 ksq) :
    m = make_special PROMOTION (sqSub t2 D.offset) t2 ROOK ∨
    m = make_special PROMOTION (sqSub t2 D.offset) t2 BISHOP ∨
    m = make_special PROMOTION (sqSub t2 D.offset) t2 KNIGHT := by
  rw [show make_promotions QUIETS D t2 ksq =
      [] ++ [make_special PROMOTION (sqSub t2 D.offset) t2 ROOK,
        make_special PROMOTION (sqSub t2 D.offset) t2 BISHOP,
        make_special PROMOTION (sqSub t2 D.offset) t2 KNIGHT] ++ []
      from rfl] at h
  simp only [List.append_nil, List.nil_append, List.mem_cons,
    List.mem_singleton] at h
  tauto

/-- The second operand of a bitwise-and constrains every serialized bit. -/
theorem serialize_land_bit {x c : Bitboard} {t : Nat} (ht : t ∈ serialize (x &&& c)) :
    c.testBit t = true := by
  have h2 := (mem_serialize.mp ht).2
  rw [Nat.testBit_land] at h2
  simp only [Bool.and_eq_true] at h2
  exact h2.2

/-- Every CAPTURES-mode move is a queen promotion, an en passant capture, or
a normal move onto an enemy-occupied square. -/
theorem generate_captures_shape (pos : Position) (m : Move)
    (h : m ∈ generate CAPTURES pos) :
    (m.mtype = PROMOTION ∧ m.promotion = QUEEN) ∨
    m.mtype = ENPASSANT ∨
    (m.mtype = NORMAL ∧
      (pos.byColor pos.side_to_move.opp).testBit m.to_sq = true) := by
  rw [generate_captures_eq] at h
  simp only [List.mem_append, List.not_mem_nil, or_false] at h
  rcases h with ((((hp | hk) | hb) | hr) | hq) | hki
  case _ =>
    rw [gpm_captures_eq] at hp
    simp only [List.mem_append, List.not_mem_nil, false_or] at hp
    rcases hp with hpr | (hc1 | hc2) | hep
    · by_cases h7 : (pos.byTypeC pos.side_to_move PAWN &&&
          (if pos.side_to_move = WHITE then rbb 6 else rbb 1)) ≠ 0
      · rw [if_pos h7] at hpr
        simp only [List.mem_append, List.mem_flatMap] at hpr
        rcases hpr with (⟨t2, -, hm⟩ | ⟨t2, -, hm⟩) | ⟨t2, -, hm⟩ <;>
          rw [mem_make_promotions_captures hm] <;> exact Or.inl ⟨rfl, rfl⟩
      · rw [if_neg h7] at hpr
        exact absurd hpr (List.not_mem_nil m)
    · simp only [List.mem_map] at hc1
      obtain ⟨t, ht, rfl⟩ := hc1
      exact Or.inr (Or.inr ⟨rfl, serialize_land_bit ht⟩)
    · simp only [List.mem_map] at hc2
      obtain ⟨t, ht, rfl⟩ := hc2
      exact Or.inr (Or.inr ⟨rfl, serialize_land_bit ht⟩)
    · by_cases hepn : pos.ep_square ≠ SQ_NONE
      · rw [if_pos hepn] at hep
        simp only [List.mem_map] at hep
        obtain ⟨f, -, rfl⟩ := hep
        exact Or.inr (Or.inl rfl)
      · rw [if_neg hepn] at hep
        exact absurd hep (List.not_mem_nil m)
  case _ =>
    rw [generate_moves_nochecks_eq] at hk
    simp only [List.mem_flatMap, List.mem_map] at hk
    obtain ⟨fr, -, t, ht, rfl⟩ := hk
    exact Or.inr (Or.inr ⟨rfl, serialize_land_bit ht⟩)
  case _ =>
    rw [generate_moves_nochecks_eq] at hb
    simp only [List.mem_flatMap, List.mem_map] at hb
    obtain ⟨fr, -, t, ht, rfl⟩ := hb
    exact Or.inr (Or.inr ⟨rfl, serialize_land_bit ht⟩)
  case _ =>
    rw [generate_moves_nochecks_eq] at hr
    simp only [List.mem_flatMap, List.mem_map] at hr
    obtain ⟨fr, -, t, ht, rfl⟩ := hr
    exact Or.inr (Or.inr ⟨rfl, serialize_land_bit ht⟩)
  case _ =>
    rw [generate_moves_nochecks_eq] at hq
    simp only [List.mem_flatMap, List.mem_map] at hq
    obtain ⟨fr, -, t, ht, rfl⟩ := hq
    exact Or.inr (Or.inr ⟨rfl, serialize_land_bit ht⟩)
  case _ =>
    simp only [List.mem_map] at hki
    obtain ⟨t, ht, rfl⟩ := hki
    exact Or.inr (Or.inr ⟨rfl, serialize_land_bit ht⟩)

/-- Every QUIETS-mode move is an underpromotion, a castling move, or a
normal move onto an empty square. -/
theorem generate_quiets_shape (pos : Position) (m : Move)
    (h : m ∈ generate QUIETS pos) :
    (m.mtype = PROMOTION ∧
      (m.promotion = ROOK ∨ m.promotion = BISHOP ∨ m.promotion = KNIGHT)) ∨
    m.mtype = CASTLING ∨
    (m.mtype = NORMAL ∧ (bbNot pos.pieces).testBit m.to_sq = true) := by
  rw [generate_quiets_eq] at h
  simp only [List.mem_append, List.not_mem_nil, or_false] at h
  rcases h with ((((hp | hk) | hb) | hr) | hq) | hki | hca
  case _ =>
    rw [gpm_quiets_eq] at hp
    simp only [List.mem_append, List.not_mem_nil, or_false] at hp
    rcases hp with (hpu1 | hpu2) | hpr
    · simp only [List.mem_map] at hpu1
      obtain ⟨t, ht, rfl⟩ := hpu1
      exact Or.inr (Or.inr ⟨rfl, serialize_land_bit ht⟩)
    · simp only [List.mem_map] at hpu2
      obtain ⟨t, ht, rfl⟩ := hpu2
      exact Or.inr (Or.inr ⟨rfl, serialize_land_bit ht⟩)
    · by_cases h7 : (pos.byTypeC pos.side_to_move PAWN &&&
          (if pos.side_to_move = WHITE then rbb 6 else rbb 1)) ≠ 0
      · rw [if_pos h7] at hpr
        simp only [List.mem_append, List.mem_flatMap] at hpr
        rcases hpr with (⟨t2, -, hm⟩ | ⟨t2, -, hm⟩) | ⟨t2, -, hm⟩ <;>
          rcases mem_make_promotions_quiets hm with hm2 | hm2 | hm2 <;>
          rw [hm2] <;> exact Or.inl ⟨rfl, by simp [make_special]⟩
      · rw [if_neg h7] at hpr
        exact absurd hpr (List.not_mem_nil m)
  case _ =>
    rw [generate_moves_nochecks_eq] at hk
    simp only [List.mem_flatMap, List.mem_map] at hk
    obtain ⟨fr, -, t, ht, rfl⟩ := hk
    exact Or.inr (Or.inr ⟨rfl, serialize_land_bit ht⟩)
  case _ =>
    rw [generate_moves_nochecks_eq] at hb
    simp only [List.mem_flatMap, List.mem_map] at hb
    obtain ⟨fr, -, t, ht, rfl⟩ := hb
    exact Or.inr (Or.inr ⟨rfl, serialize_land_bit ht⟩)
  case _ =>
    rw [generate_moves_nochecks_eq] at hr
    simp only [List.mem_flatMap, List.mem_map] at hr
    obtain ⟨fr, -, t, ht, rfl⟩ := hr
    exact Or.inr (Or.inr ⟨rfl, serialize_land_bit ht⟩)
  case _ =>
    rw [generate_moves_nochecks_eq] at hq
    simp only [List.mem_flatMap, List.mem_map] at hq
    obtain ⟨fr, -, t, ht, rfl⟩ := hq
    exact Or.inr (Or.inr ⟨rfl, serialize_land_bit ht⟩)
  case _ =>
    simp only [List.mem_map] at hki
    obtain ⟨t, ht, rfl⟩ := hki
    exact Or.inr (Or.inr ⟨rfl, serialize_land_bit ht⟩)
  case _ =>
    by_cases hcnd : (QUIETS : GenType) ≠ CAPTURES ∧
        (pos.can_castle_k pos.side_to_move = true ∨
         pos.can_castle_q pos.side_to_move = true)
    · rw [if_pos hcnd] at hca
      simp only [List.mem_append] at hca
      rcases hca with hc1 | hc1
      · by_cases hik : ¬ pos.castling_impeded_k pos.side_to_move = true ∧
            pos.can_castle_k pos.side_to_move = true
        · rw [if_pos hik] at hc1
          simp only [List.mem_singleton] at hc1
          rw [hc1]
          exact Or.inr (Or.inl rfl)
        · rw [if_neg hik] at hc1
          exact absurd hc1 (List.not_mem_nil m)
      · by_cases hiq : ¬ pos.castling_impeded_q pos.side_to_move = true ∧
            pos.can_castle_q pos.side_to_move = true
        · rw [if_pos hiq] at hc1
          simp only [List.mem_singleton] at hc1
          rw [hc1]
          exact Or.inr (Or.inl rfl)
        · rw [if_neg hiq] at hc1
          exact absurd hc1 (List.not_mem_nil m)
    · rw [if_neg hcnd] at hca
      exact absurd hca (List.not_mem_nil m)

/-- Disjointness half of the C3 partition. -/
theorem generate_disj (pos : Position) (m : Move)
    (hC : m ∈ generate CAPTURES pos) (hQ : m ∈ generate QUIETS pos) : False := by
  rcases generate_captures_shape pos m hC with ⟨c1, c2⟩ | c1 | ⟨c1, c2⟩
  · rcases generate_quiets_shape pos m hQ with ⟨q1, q2⟩ | q1 | ⟨q1, q2⟩
    · rw [c2] at q2
      rcases q2 with q | q | q <;> exact absurd q (by decide)
    · rw [c1] at q1
      exact absurd q1 (by decide)
    · rw [c1] at q1
      exact absurd q1 (by decide)
  · rcases generate_quiets_shape pos m hQ with ⟨q1, q2⟩ | q1 | ⟨q1, q2⟩
    · rw [c1] at q1
      exact absurd q1 (by decide)
    · rw [c1] at q1
      exact absurd q1 (by decide)
    · rw [c1] at q1
      exact absurd q1 (by decide)
  · rcases generate_quiets_shape pos m hQ with ⟨q1, q2⟩ | q1 | ⟨q1, q2⟩
    · rw [c1] at q1
      exact absurd q1 (by decide)
    · rw [c1] at q1
      exact absurd q1 (by decide)
    · exact them_empty_bit_disj pos m.to_sq c2 q2

/-- C3: for a position whose side to move is not in check (and whose two
colour occupancies are disjoint), the CAPTURES and QUIETS outputs of the
generator are disjoint and together they are exactly the NON_EVASIONS
output, as unordered sets. -/
theorem captures_quiets_partition (pos : Position)
    (_hnocheck : pos.checkersBB = 0)
    (hdisj : pos.byColor WHITE &&& pos.byColor BLACK = 0) :
    (∀ m, m ∈ generate NON_EVASIONS pos ↔
      (m ∈ generate CAPTURES pos ∨ m ∈ generate QUIETS pos)) ∧
    ∀ m, ¬(m ∈ generate CAPTURES pos ∧ m ∈ generate QUIETS pos) :=
  ⟨fun m => generate_union pos hdisj m,
   fun m hm => generate_disj pos m hm.1 hm.2⟩

/-- Witness for captures_quiets_partition: position A (white Ka1, Nc3;
black Kh8, Pd5, Pe6) is not in check and has disjoint colour occupancies;
the partition is instantiated at the capture Nc3xd5. -/
theorem captures_quiets_partition_w :
    posA.checkersBB = 0 ∧
    posA.byColor WHITE &&& posA.byColor BLACK = 0 ∧
    (make_move 18 35 ∈ generate NON_EVASIONS posA ↔
      (make_move 18 35 ∈ generate CAPTURES posA ∨
       make_move 18 35 ∈ generate QUIETS posA)) ∧
    ¬(make_move 18 35 ∈ generate CAPTURES posA ∧
      make_move 18 35 ∈ generate QUIETS posA) :=
  ⟨rfl, by decide,
   (captures_quiets_partition posA rfl (by decide)).1 (make_move 18 35),
   (captures_quiets_partition posA rfl (by decide)).2 (make_move 18 35)⟩
